import Mathlib

/-!
Verification development for the native-interop layer of the repository:
the runtime probe (runtime.ts), the FFI compatibility shim (ffi.ts) and the
struct layout plus pack/unpack engine (deno-ffi-structs.ts).

Modelling conventions, applied uniformly:

- JavaScript strings are represented by their UTF-8 byte sequences
  (List Nat); under this representation TextEncoder.encode and
  TextDecoder.decode are the identity, and the byte length of the encoding
  of a string is the length of the list.
- Machine memory is a flat byte list (Heap); allocating a payload appends
  its bytes and returns the base index as the pointer value.  The heap is
  seeded with one guard byte so every allocated pointer is nonzero, which
  mirrors the fact that a real allocation is never at address 0.
- DataView writes and reads are explicit little-endian byte encodings
  (encLE / decLE); JavaScript ToUint8 / ToUint16 / ToUint32 / ToBigUint64
  truncation is the modulus taken inside encLEI.
- Fallible JavaScript code (throw) is modelled with Option: none is the
  thrown error.
- Floating-point payloads (f32 / f64 fields) are outside the embedding;
  their write branches produce placeholder zero bytes and every theorem
  below excludes float-typed fields from its scope.
-/

namespace OpenTui

/-! ## Byte-level primitives -/

/-- Little-endian encoding of a natural number into `w` bytes
(the byte order DataView uses when its last argument is true). -/
def encLE : Nat → Nat → List Nat
  | 0, _ => []
  | w + 1, v => v % 256 :: encLE w (v / 256)

/-- Little-endian decoding of a byte list. -/
def decLE : List Nat → Nat
  | [] => 0
  | b :: rest => b + 256 * decLE rest

/-- Encoding of an integer after JavaScript integer-conversion truncation:
the value is reduced modulo 2^(8w) first, as ToUint8/ToUint16/ToUint32 and
BigInt.asUintN do. -/
def encLEI (w : Nat) (v : Int) : List Nat :=
  encLE w (v % ((2 : Int) ^ (8 * w))).toNat

/-- Two's-complement reinterpretation of an unsigned `w`-byte value, the
way getInt16/getInt32 interpret the stored bytes. -/
def asSigned (w : Nat) (v : Nat) : Int :=
  if v < 2 ^ (8 * w - 1) then (v : Int) else (v : Int) - 2 ^ (8 * w)

/-- Splice `bytes` into `buf` starting at `off` (a DataView write). -/
def writeBytes (buf : List Nat) (off : Nat) (bytes : List Nat) : List Nat :=
  buf.take off ++ bytes ++ buf.drop (off + bytes.length)

/-- Read `len` bytes of `buf` starting at `off` (a DataView read). -/
def readBytes (buf : List Nat) (off len : Nat) : List Nat :=
  (buf.drop off).take len

/-- Flat native memory: a byte list indexed by address. -/
abbrev Heap := List Nat

/-- Read `len` bytes of native memory starting at address `p`. -/
def readMem (h : Heap) (p len : Nat) : List Nat :=
  (h.drop p).take len

/-- Allocate a payload: append the bytes, return the base address.  Models
ptr(buffer) for a freshly created ArrayBuffer. -/
def allocBytes (h : Heap) (b : List Nat) : Nat × Heap :=
  (h.length, h ++ b)

/-! ## JavaScript values

A shallow domain of the JavaScript values the interop layer manipulates.
`str` carries the UTF-8 bytes of a string; `obj` is an opaque host pointer
handle carrying the numeric value the Deno pointer accessor would produce
for it (none when the accessor cannot produce a number). -/

inductive JsValue where
  | undef : JsValue
  | null : JsValue
  | bool (b : Bool) : JsValue
  | num (n : Int) : JsValue
  | big (n : Int) : JsValue
  | str (bytes : List Nat) : JsValue
  | arr (xs : List JsValue) : JsValue
  | obj (resolved : Option Int) : JsValue

/-- JavaScript truthiness of the modelled values. -/
def jsTruthy : JsValue → Bool
  | .undef => false
  | .null => false
  | .bool b => b
  | .num n => n != 0
  | .big n => n != 0
  | .str bytes => bytes != []
  | .arr _ => true
  | .obj _ => true

/-- Is the value the JavaScript undefined. -/
def isUndef : JsValue → Bool
  | .undef => true
  | _ => false

/-- Number(value ?? 0) on the modelled values.  Number of a string or
array is NaN-like and unreachable under the typing hypotheses used below;
it is modelled as 0. -/
def jsNum0 : JsValue → Int
  | .undef => 0
  | .null => 0
  | .bool b => if b then 1 else 0
  | .num n => n
  | .big n => n
  | .str _ => 0
  | .arr _ => 0
  | .obj _ => 0

/-- BigInt(value ?? 0) on the modelled values.  BigInt of a string, array
or handle throws in general and is unreachable under the typing hypotheses
used below; it is modelled as 0. -/
def jsBig0 : JsValue → Int
  | .undef => 0
  | .null => 0
  | .bool b => if b then 1 else 0
  | .num n => n
  | .big n => n
  | .str _ => 0
  | .arr _ => 0
  | .obj _ => 0

/-- String(value) for a string value; other inputs are unreachable under
the hypotheses used below and map to the empty string. -/
def jsToStr : JsValue → List Nat
  | .str bytes => bytes
  | _ => []

/-! ## Runtime probe and FFI environment -/

/-- The two host runtimes detectFfiRuntime can return. -/
inductive RuntimeKind where
  | bun : RuntimeKind
  | deno : RuntimeKind
deriving DecidableEq

/-- Static facts about the active host that the shim branches on:
the pointer width (getPointerSize), the detected runtime, whether
Deno.UnsafePointer.offset exists, and whether Deno.UnsafePointer.value
exists. -/
structure FfiEnv where
  ps : Nat
  runtime : RuntimeKind
  denoHasOffset : Bool
  denoPtrValue : Bool

/-- getPointerSize from deno-ffi-structs.ts: 8 for a 64-bit process or
Deno build architecture, else 4. -/
def getPointerSize (procArch : Option String) (denoArch : Option String) : Nat :=
  if procArch = some "x64" ∨ procArch = some "arm64" then 8
  else if denoArch = some "x86_64" ∨ denoArch = some "aarch64" then 8
  else 4

/-- pointerToBigInt from ffi.ts.  none models the thrown TypeError
(Unsupported pointer value).  The order of the branches mirrors the
source: the loose null check first, then bigint, then number, then the
Deno pointer-value accessor for every remaining representation. -/
def pointerToBigInt (env : FfiEnv) : JsValue → Option Int
  | .null => some 0
  | .undef => some 0
  | .big n => some n
  | .num n => some n
  | p =>
    if env.denoPtrValue then
      match p with
      | .obj (some v) => some v
      | _ => none
    else none

/-- toArrayBuffer from ffi.ts.  On Bun the host primitive itself honours
the byte offset (modelled from the spec: copies byteLength bytes starting
at pointer + byteOffset).  On Deno the source offsets the pointer only
when byteOffset > 0 and UnsafePointer.offset exists, and otherwise reads
from the unoffset pointer. -/
def toArrayBuffer (env : FfiEnv) (h : Heap) (p : Nat) (byteOffset len : Nat) : List Nat :=
  match env.runtime with
  | .bun => readMem h (p + byteOffset) len
  | .deno =>
    let target := if byteOffset > 0 ∧ env.denoHasOffset then p + byteOffset else p
    readMem h target len

/-! ## Symbol table normalization (ffi.ts) -/

/-- The closed set of wire types of the shim, with the legacy alias ptr a
distinct tag from pointer, as in the source union type. -/
inductive NativeType where
  | void | bool | u8 | i8 | u16 | i16 | u32 | i32 | u64 | i64
  | f32 | f64 | ptr | pointer | buffer | usize
deriving DecidableEq

/-- A compat symbol definition: either legacy field names (args/returns)
or canonical field names (parameters/result) may be populated. -/
structure CompatSymbolDefinition where
  args : Option (List NativeType) := none
  parameters : Option (List NativeType) := none
  returns : Option NativeType := none
  result : Option NativeType := none
  nonblocking : Option Bool := none
deriving DecidableEq

/-- normalizeSymbol from ffi.ts: parameters win over args, result wins
over returns, with the empty list and void as fallbacks. -/
def normalizeSymbol (s : CompatSymbolDefinition) :
    List NativeType × NativeType × Option Bool :=
  (s.parameters.getD (s.args.getD []), s.result.getD (s.returns.getD .void), s.nonblocking)

/-- toDenoType from ffi.ts: rewrite the legacy ptr alias to pointer,
leave every other tag unchanged. -/
def toDenoType (t : NativeType) : NativeType :=
  match t with
  | .ptr => .pointer
  | t => t

/-- The runtime-specific shape normalizeSymbolsForRuntime produces for
one symbol. -/
inductive NormalizedSymbol where
  | bunSym (args : List NativeType) (returns : NativeType) (nonblocking : Option Bool)
  | denoSym (parameters : List NativeType) (result : NativeType) (nonblocking : Option Bool)
deriving DecidableEq

/-- toBunSymbols from ffi.ts applied to one table. -/
def toBunSymbols (symbols : List (String × CompatSymbolDefinition)) :
    List (String × NormalizedSymbol) :=
  symbols.map (fun nv =>
    let n := normalizeSymbol nv.2
    (nv.1, .bunSym n.1 n.2.1 n.2.2))

/-- toDenoSymbols from ffi.ts applied to one table. -/
def toDenoSymbols (symbols : List (String × CompatSymbolDefinition)) :
    List (String × NormalizedSymbol) :=
  symbols.map (fun nv =>
    let n := normalizeSymbol nv.2
    (nv.1, .denoSym (n.1.map toDenoType) (toDenoType n.2.1) n.2.2))

/-- normalizeSymbolsForRuntime from ffi.ts. -/
def normalizeSymbolsForRuntime (symbols : List (String × CompatSymbolDefinition))
    (runtime : RuntimeKind) : List (String × NormalizedSymbol) :=
  match runtime with
  | .bun => toBunSymbols symbols
  | .deno => toDenoSymbols symbols

/-! ## Display width (runtime.ts)

For this component a JavaScript string is modelled as the list of its
Unicode code points, because the source iterates `for (const char of
value)`, which walks code points. -/

/-- Modelled from the spec: the Unicode Mark property table consulted by
the host regex engine for the source test \p{Mark}, restricted to the
combining-mark blocks; the combining acute accent U+0301 lies in the
first range. -/
def isMarkCodePoint (cp : Nat) : Bool :=
  (0x0300 ≤ cp ∧ cp ≤ 0x036F) ∨
  (0x1AB0 ≤ cp ∧ cp ≤ 0x1AFF) ∨
  (0x1DC0 ≤ cp ∧ cp ≤ 0x1DFF) ∨
  (0x20D0 ≤ cp ∧ cp ≤ 0x20FF) ∨
  (0xFE20 ≤ cp ∧ cp ≤ 0xFE2F)

/-- Modelled from the spec: the Unicode Extended_Pictographic property
table consulted by the host regex engine for the source test
\p{Extended_Pictographic}, restricted to the emoji blocks; the emoji
U+1F642 lies in the emoticons range. -/
def isExtendedPictographic (cp : Nat) : Bool :=
  (0x2600 ≤ cp ∧ cp ≤ 0x27BF) ∨
  (0x1F300 ≤ cp ∧ cp ≤ 0x1F5FF) ∨
  (0x1F600 ≤ cp ∧ cp ≤ 0x1F64F) ∨
  (0x1F680 ≤ cp ∧ cp ≤ 0x1F6FF) ∨
  (0x1F900 ≤ cp ∧ cp ≤ 0x1F9FF) ∨
  (0x1FA70 ≤ cp ∧ cp ≤ 0x1FAFF)

/-- isFullWidthCodePoint from runtime.ts, translated range for range. -/
def isFullWidthCodePoint (cp : Nat) : Bool :=
  0x1100 ≤ cp ∧
    (cp ≤ 0x115f ∨
      cp = 0x2329 ∨
      cp = 0x232a ∨
      (0x2e80 ≤ cp ∧ cp ≤ 0x3247 ∧ cp ≠ 0x303f) ∨
      (0x3250 ≤ cp ∧ cp ≤ 0x4dbf) ∨
      (0x4e00 ≤ cp ∧ cp ≤ 0xa4c6) ∨
      (0xa960 ≤ cp ∧ cp ≤ 0xa97c) ∨
      (0xac00 ≤ cp ∧ cp ≤ 0xd7a3) ∨
      (0xf900 ≤ cp ∧ cp ≤ 0xfaff) ∨
      (0xfe10 ≤ cp ∧ cp ≤ 0xfe19) ∨
      (0xfe30 ≤ cp ∧ cp ≤ 0xfe6b) ∨
      (0xff01 ≤ cp ∧ cp ≤ 0xff60) ∨
      (0xffe0 ≤ cp ∧ cp ≤ 0xffe6) ∨
      (0x1b000 ≤ cp ∧ cp ≤ 0x1b001) ∨
      (0x1f200 ≤ cp ∧ cp ≤ 0x1f251) ∨
      (0x20000 ≤ cp ∧ cp ≤ 0x3fffd))

/-- getCharWidth from runtime.ts, on one code point: C0/C1 controls are
width 0; combining marks and variation selectors are width 0; emoji and
full-width code points are width 2; everything else is width 1. -/
def getCharWidth (cp : Nat) : Nat :=
  if cp ≤ 0x1f ∨ (0x7f ≤ cp ∧ cp ≤ 0x9f) then 0
  else if isMarkCodePoint cp ∨ (0xFE00 ≤ cp ∧ cp ≤ 0xFE0F) then 0
  else if isExtendedPictographic cp ∨ isFullWidthCodePoint cp then 2
  else 1

/-- stringWidth from runtime.ts: delegate to the Bun native width
function when present, otherwise sum per-code-point widths. -/
def stringWidth (bunStringWidth : Option (List Nat → Nat)) (value : List Nat) : Nat :=
  match bunStringWidth with
  | some native => native value
  | none => value.foldl (fun w cp => w + getCharWidth cp) 0

/-! ## Struct layout engine (deno-ffi-structs.ts) -/

/-- The primitive scalar tags of the struct engine. -/
inductive PrimitiveType where
  | u8 | bool_u8 | bool_u32 | u16 | i16 | u32 | i32 | u64 | f32 | f64 | pointer
deriving DecidableEq

/-- primitiveSizes from deno-ffi-structs.ts, with the pointer entry equal
to the detected pointer width. -/
def primitiveSizes (ps : Nat) : PrimitiveType → Nat
  | .u8 => 1
  | .bool_u8 => 1
  | .bool_u32 => 4
  | .u16 => 2
  | .i16 => 2
  | .u32 => 4
  | .i32 => 4
  | .u64 => 8
  | .f32 => 4
  | .f64 => 8
  | .pointer => ps

/-- An enum definition: the base wire type and the name-to-value mapping
in declaration order (JavaScript object keys are unique and ordered).
Enum names are strings, hence byte lists under the string convention. -/
structure EnumDefM where
  type : PrimitiveType
  mapping : List (List Nat × Int)

/-- EnumDef.to from defineEnum: a numeric input is returned unchecked; a
name is looked up in the mapping and an unknown name throws
(InvalidEnumValue, modelled as none).  Inputs of other shapes index the
mapping object with a coerced key that is never present and throw too. -/
def enumTo (e : EnumDefM) : JsValue → Option Int
  | .num n => some n
  | .str name => (e.mapping.find? (fun p => p.1 == name)).map (·.2)
  | _ => none

/-- EnumDef.from from defineEnum: look up the reverse map built by
inserting every mapping entry in order, so for duplicate values the last
entry wins; an unknown numeric value throws (InvalidEnumValue, modelled
as none). -/
def enumFrom (e : EnumDefM) (v : Int) : Option (List Nat) :=
  (e.mapping.reverse.find? (fun p => p.2 == v)).map (·.1)

/-- The field type union of defineStruct: a primitive tag, the string
tag, an enum definition, or a one-element array form. -/
inductive FieldType where
  | prim (t : PrimitiveType)
  | charPtr
  | enum (e : EnumDefM)
  | arrayOf (t : PrimitiveType)

/-- Per-field options, with absent options holding their source
fallbacks (optional ?? false, default undefined, lengthOf undefined). -/
structure FieldOptions where
  optional : Bool := false
  defaultValue : JsValue := .undef
  lengthOf : Option String := none
  packTransform : Option (JsValue → JsValue) := none
  unpackTransform : Option (JsValue → JsValue) := none

/-- One declared field: name, type, options. -/
structure FieldDef where
  name : String
  type : FieldType
  opts : FieldOptions := {}

/-- The kind tag of a resolved layout entry. -/
inductive FieldKind where
  | primitive | char_ptr | enum | array
deriving DecidableEq

/-- A resolved layout entry, mirroring the LayoutEntry record of the
source. -/
structure LayoutEntry where
  name : String
  kind : FieldKind
  type : PrimitiveType
  offset : Nat
  size : Nat
  optional : Bool
  defaultValue : JsValue
  lengthOf : Option String
  packTransform : Option (JsValue → JsValue)
  unpackTransform : Option (JsValue → JsValue)
  enumDef : Option EnumDefM

/-- alignOffset from deno-ffi-structs.ts:
(offset + align - 1) & ~(align - 1) on 32-bit JavaScript integers.  The
complement of align - 1 as an unsigned 32-bit pattern is 2^32 - align,
and both operands pass through ToInt32, hence the mod 2^32. -/
def alignOffset (offset align : Nat) : Nat :=
  Nat.land ((offset + align - 1) % 2 ^ 32) ((2 ^ 32 - align) % 2 ^ 32)

/-- The kind, wire type, slot size and enum payload a declared field type
resolves to, in the branch order of the source (array first, then the
string forms, else enum). -/
def resolveFieldType (ps : Nat) : FieldType → FieldKind × PrimitiveType × Nat × Option EnumDefM
  | .arrayOf t => (.array, t, ps, none)
  | .charPtr => (.char_ptr, .pointer, ps, none)
  | .prim t => (.primitive, t, primitiveSizes ps t, none)
  | .enum e => (.enum, e.type, primitiveSizes ps e.type, some e)

/-- The layout loop of defineStruct: walk the declared fields, align the
running offset to min(size, pointerWidth) (at least 1), place the entry,
advance by its size.  Returns the entries and the final unpadded offset. -/
def layoutFields (ps : Nat) : List FieldDef → Nat → List LayoutEntry × Nat
  | [], offset => ([], offset)
  | f :: rest, offset =>
    let r := resolveFieldType ps f.type
    let size := r.2.2.1
    let align := max 1 (min size ps)
    let off := alignOffset offset align
    let entry : LayoutEntry :=
      { name := f.name
        kind := r.1
        type := r.2.1
        offset := off
        size := size
        optional := f.opts.optional
        defaultValue := f.opts.defaultValue
        lengthOf := f.opts.lengthOf
        packTransform := f.opts.packTransform
        unpackTransform := f.opts.unpackTransform
        enumDef := r.2.2.2 }
    let rec_ := layoutFields ps rest (off + size)
    (entry :: rec_.1, rec_.2)

/-- The resolved layout of a field list. -/
def layoutOf (ps : Nat) (fields : List FieldDef) : List LayoutEntry :=
  (layoutFields ps fields 0).1

/-- The total struct size: the final offset rounded up to the pointer
width. -/
def structSize (ps : Nat) (fields : List FieldDef) : Nat :=
  alignOffset (layoutFields ps fields 0).2 ps

/-- The byName map of defineStruct (a Map keyed by field name, where a
later duplicate overwrites an earlier one, hence the reverse search). -/
def byNameF (layout : List LayoutEntry) (n : String) : Option LayoutEntry :=
  layout.reverse.find? (fun e => e.name == n)

/-- The inferredLengthFieldFor map of defineStruct: the last primitive or
enum entry whose lengthOf names the target wins. -/
def inferredLengthFieldFor (layout : List LayoutEntry) (target : String) : Option String :=
  (layout.reverse.find? (fun e =>
    (e.kind == .primitive || e.kind == .enum) && e.lengthOf == some target)).map (·.name)

/-! ## Primitive writes and reads (deno-ffi-structs.ts) -/

/-- writePrimitive from deno-ffi-structs.ts, producing the bytes stored
at the field slot.  Multi-byte scalars are little-endian; u64 goes
through BigInt; the pointer branch resolves the value with
pointerToBigInt (none models its thrown TypeError) and stores 8 or 4
bytes depending on the pointer width.  The f32/f64 branches hold IEEE
payloads that are outside this embedding and produce placeholder zero
bytes; every theorem below excludes float fields. -/
def writePrimitive (env : FfiEnv) (t : PrimitiveType) (v : JsValue) : Option (List Nat) :=
  match t with
  | .u8 => some (encLEI 1 (jsNum0 v))
  | .bool_u8 => some [if jsTruthy v then 1 else 0]
  | .bool_u32 => some (encLEI 4 (if jsTruthy v then 1 else 0))
  | .u16 => some (encLEI 2 (jsNum0 v))
  | .i16 => some (encLEI 2 (jsNum0 v))
  | .u32 => some (encLEI 4 (jsNum0 v))
  | .i32 => some (encLEI 4 (jsNum0 v))
  | .u64 => some (encLEI 8 (jsBig0 v))
  | .f32 => some (List.replicate 4 0)
  | .f64 => some (List.replicate 8 0)
  | .pointer =>
    (pointerToBigInt env v).map (fun p =>
      if env.ps = 8 then encLEI 8 p else encLEI 4 p)

/-- readPrimitive from deno-ffi-structs.ts, decoding the bytes of one
field slot: unsigned reads yield numbers, signed reads reinterpret in
two's complement, u64 and pointer reads yield bigints, bool reads yield
booleans.  The float branches are placeholders, excluded below. -/
def readPrimitive (env : FfiEnv) (t : PrimitiveType) (bytes : List Nat) : JsValue :=
  match t with
  | .u8 => .num (decLE (bytes.take 1))
  | .bool_u8 => .bool (decLE (bytes.take 1) != 0)
  | .bool_u32 => .bool (decLE (bytes.take 4) != 0)
  | .u16 => .num (decLE (bytes.take 2))
  | .i16 => .num (asSigned 2 (decLE (bytes.take 2)))
  | .u32 => .num (decLE (bytes.take 4))
  | .i32 => .num (asSigned 4 (decLE (bytes.take 4)))
  | .u64 => .big (decLE (bytes.take 8))
  | .f32 => .num 0
  | .f64 => .num 0
  | .pointer =>
    .big (if env.ps = 8 then decLE (bytes.take 8) else decLE (bytes.take 4))

/-! ## Pack (deno-ffi-structs.ts) -/

/-- A struct input value: the field-keyed mapping pack consumes, with
undefined for absent keys. -/
abbrev Input := String → JsValue

/-- Step 1 of the per-field pack pipeline: the input value with the
declared default substituted for undefined. -/
def resolveValue (input : Input) (e : LayoutEntry) : JsValue :=
  if isUndef (input e.name) && !isUndef e.defaultValue then e.defaultValue else input e.name

/-- Steps 1 to 4 of the per-field pack pipeline: take the input value,
fall back to the declared default, apply the pack transform, recompute a
derived length field from its source (a string contributes its UTF-8
byte length, an array its element count, a buffer its byte length, which
under the byte-list string convention coincides with the string case),
and null out an absent optional value. -/
def packFieldValue (input : Input) (e : LayoutEntry) : JsValue :=
  let v1 := resolveValue input e
  let v2 := match e.packTransform with
    | some f => f v1
    | none => v1
  let v3 := match e.kind, e.lengthOf with
    | .primitive, some src =>
      (match input src with
        | .str b => .num b.length
        | .arr xs => .num xs.length
        | _ => v2)
    | .enum, some src =>
      (match input src with
        | .str b => .num b.length
        | .arr xs => .num xs.length
        | _ => v2)
    | _, _ => v2
  if isUndef v3 && e.optional then .null else v3

/-- The body of the per-element loop of the array pack branch: each
element is written at its native width into a dense fresh buffer, which
is the concatenation of the per-element encodings. -/
def packArrayPayload (env : FfiEnv) (t : PrimitiveType) (xs : List JsValue) :
    Option (List Nat) :=
  (xs.mapM (writePrimitive env t)).map List.flatten

/-- Write the derived length of a string or array field into its length
field slot, as the char_ptr and array pack branches do when the relation
is declared on the string or array field itself. -/
def packLengthWrite (env : FfiEnv) (byName : String → Option LayoutEntry)
    (lengthOf : Option String) (len : Nat) (buf : List Nat) : Option (List Nat) :=
  match lengthOf with
  | none => some buf
  | some lf =>
    match byName lf with
    | none => some buf
    | some lenField =>
      (writePrimitive env lenField.type (.num len)).map
        (fun bytes => writeBytes buf lenField.offset bytes)

/-- Pack one field into the struct buffer, possibly allocating an
out-of-line payload.  none models a thrown error (an invalid enum name
or an unresolvable pointer value). -/
def packEntry (env : FfiEnv) (byName : String → Option LayoutEntry) (input : Input)
    (e : LayoutEntry) (buf : List Nat) (h : Heap) : Option (List Nat × Heap) :=
  let v := packFieldValue input e
  match e.kind with
  | .primitive =>
    (writePrimitive env e.type v).map (fun bytes => (writeBytes buf e.offset bytes, h))
  | .enum =>
    match e.enumDef with
    | none => none
    | some ed =>
      (enumTo ed v).bind (fun n =>
        (writePrimitive env e.type (.num n)).map
          (fun bytes => (writeBytes buf e.offset bytes, h)))
  | .char_ptr =>
    let text := match v with
      | .null => []
      | .undef => []
      | v => jsToStr v
    if text.length = 0 then
      (writePrimitive env .pointer (.num 0)).bind (fun bytes =>
        (packLengthWrite env byName e.lengthOf text.length
            (writeBytes buf e.offset bytes)).map (fun buf2 => (buf2, h)))
    else
      let ah := allocBytes h text
      (writePrimitive env .pointer (.num ah.1)).bind (fun bytes =>
        (packLengthWrite env byName e.lengthOf text.length
            (writeBytes buf e.offset bytes)).map (fun buf2 => (buf2, ah.2)))
  | .array =>
    let values := match v with
      | .arr xs => xs
      | _ => []
    (packArrayPayload env e.type values).bind (fun payload =>
      if values.length = 0 then
        (writePrimitive env .pointer (.num 0)).bind (fun bytes =>
          (packLengthWrite env byName e.lengthOf values.length
              (writeBytes buf e.offset bytes)).map (fun buf2 => (buf2, h)))
      else
        let ah := allocBytes h payload
        (writePrimitive env .pointer (.num ah.1)).bind (fun bytes =>
          (packLengthWrite env byName e.lengthOf values.length
              (writeBytes buf e.offset bytes)).map (fun buf2 => (buf2, ah.2))))

/-- The pack loop over the layout entries, in declaration order. -/
def packFields (env : FfiEnv) (byName : String → Option LayoutEntry) (input : Input) :
    List LayoutEntry → List Nat → Heap → Option (List Nat × Heap)
  | [], buf, h => some (buf, h)
  | e :: rest, buf, h =>
    (packEntry env byName input e buf h).bind (fun bh =>
      packFields env byName input rest bh.1 bh.2)

/-- Struct definition options: the optional reduceValue input
normalizer. -/
structure StructDefOptions where
  reduceValue : Option (Input → Input) := none

/-- pack from defineStruct: normalize the input, allocate a zeroed
buffer of the struct size, and run the field loop.  The retained payload
references of the source (_refs) are subsumed by the heap, which keeps
every allocated payload reachable. -/
def packStruct (env : FfiEnv) (fields : List FieldDef) (opts : StructDefOptions)
    (input : Input) (h : Heap) : Option (List Nat × Heap) :=
  let layout := layoutOf env.ps fields
  let input1 := match opts.reduceValue with
    | some r => r input
    | none => input
  packFields env (byNameF layout) input1 layout
    (List.replicate (structSize env.ps fields) 0) h

/-! ## Unpack (deno-ffi-structs.ts) -/

/-- The out record unpack accumulates, as an association list in
insertion order; a repeated key overwrites in place as a JavaScript
object assignment does. -/
abbrev OutRec := List (String × JsValue)

/-- JavaScript object read out[name]. -/
def lookupA : OutRec → String → Option JsValue
  | [], _ => none
  | kv :: rest, n => if kv.1 = n then some kv.2 else lookupA rest n

/-- JavaScript object write out[name] = v. -/
def setA : OutRec → String → JsValue → OutRec
  | [], n, v => [(n, v)]
  | kv :: rest, n, v => if kv.1 = n then (kv.1, v) :: rest else kv :: setA rest n v

/-- getLengthFieldValue from unpack: no field name gives 0; an already
decoded value that is not undefined is converted with Number; otherwise
the length field slot is read straight from the buffer. -/
def getLengthFieldValue (env : FfiEnv) (view : List Nat)
    (byName : String → Option LayoutEntry) (out : OutRec) :
    Option String → Int
  | none => 0
  | some fn =>
    let fromField : Int :=
      match byName fn with
      | none => 0
      | some f => jsNum0 (readPrimitive env f.type (readBytes view f.offset f.size))
    match lookupA out fn with
    | some .undef => fromField
    | none => fromField
    | some v => jsNum0 v

/-- Decode one field from the struct buffer.  none models a thrown
error (an unknown enum numeric value). -/
def unpackEntry (env : FfiEnv) (view : List Nat) (h : Heap)
    (byName : String → Option LayoutEntry) (inferred : String → Option String)
    (out : OutRec) (e : LayoutEntry) : Option JsValue :=
  match e.kind with
  | .primitive => some (readPrimitive env e.type (readBytes view e.offset e.size))
  | .enum =>
    match e.enumDef with
    | none => none
    | some ed =>
      let raw := jsNum0 (readPrimitive env e.type (readBytes view e.offset e.size))
      (enumFrom ed raw).map .str
  | .char_ptr =>
    let p := jsBig0 (readPrimitive env .pointer (readBytes view e.offset e.size))
    let lenField := e.lengthOf.or (inferred e.name)
    let len := getLengthFieldValue env view byName out lenField
    if p = 0 ∨ len ≤ 0 then some (.str [])
    else some (.str (toArrayBuffer env h p.toNat 0 len.toNat))
  | .array =>
    let p := jsBig0 (readPrimitive env .pointer (readBytes view e.offset e.size))
    let lenField := e.lengthOf.or (inferred e.name)
    let len := getLengthFieldValue env view byName out lenField
    if p = 0 ∨ len ≤ 0 then some (.arr [])
    else
      let elementSize := primitiveSizes env.ps e.type
      let payload := toArrayBuffer env h p.toNat 0 (len.toNat * elementSize)
      some (.arr ((List.range len.toNat).map (fun i =>
        readPrimitive env e.type (readBytes payload (i * elementSize) elementSize))))

/-- The unpack loop over the layout entries, applying the unpack
transform and storing each decoded value in the out record. -/
def unpackFields (env : FfiEnv) (view : List Nat) (h : Heap)
    (byName : String → Option LayoutEntry) (inferred : String → Option String) :
    List LayoutEntry → OutRec → Option OutRec
  | [], out => some out
  | e :: rest, out =>
    (unpackEntry env view h byName inferred out e).bind (fun v0 =>
      let v := match e.unpackTransform with
        | some f => f v0
        | none => v0
      unpackFields env view h byName inferred rest (setA out e.name v))

/-- unpack from defineStruct. -/
def unpackStruct (env : FfiEnv) (fields : List FieldDef) (view : List Nat) (h : Heap) :
    Option OutRec :=
  let layout := layoutOf env.ps fields
  unpackFields env view h (byNameF layout) (inferredLengthFieldFor layout) layout []

/-! ## Typing and well-formedness predicates

These predicates carve out the scope on which the round-trip and
derived-length theorems are stated: transform-free structs whose string
and array fields each have a numeric length field, and inputs whose
field values are well typed and in range for their declared wire types.
They are checkable Bool functions so concrete witnesses can discharge
them by evaluation. -/

/-- The unsigned integer wire types. -/
def isUIntType : PrimitiveType → Bool
  | .u8 => true
  | .u16 => true
  | .u32 => true
  | .u64 => true
  | _ => false

/-- The floating-point wire types, outside the embedding. -/
def isFloatType : PrimitiveType → Bool
  | .f32 => true
  | .f64 => true
  | _ => false

/-- A value is well typed and in range for a wire type: numbers within
the unsigned or two's-complement range of the type, bigints for u64 and
pointer, booleans for the bool types.  Float types admit no values. -/
def typedPrim (env : FfiEnv) (t : PrimitiveType) (v : JsValue) : Bool :=
  match t, v with
  | .u8, .num n => 0 ≤ n ∧ n < (2 : Int) ^ 8
  | .u16, .num n => 0 ≤ n ∧ n < (2 : Int) ^ 16
  | .u32, .num n => 0 ≤ n ∧ n < (2 : Int) ^ 32
  | .i16, .num n => -(2 : Int) ^ 15 ≤ n ∧ n < (2 : Int) ^ 15
  | .i32, .num n => -(2 : Int) ^ 31 ≤ n ∧ n < (2 : Int) ^ 31
  | .u64, .big n => 0 ≤ n ∧ n < (2 : Int) ^ 64
  | .bool_u8, .bool _ => true
  | .bool_u32, .bool _ => true
  | .pointer, .big n => 0 ≤ n ∧ n < (2 : Int) ^ (8 * env.ps)
  | _, _ => false

/-- Does the layout contain a numeric length field for the named string
or array field. -/
def hasLenField (layout : List LayoutEntry) (target : String) : Bool :=
  layout.any (fun l =>
    l.kind == .primitive && l.lengthOf == some target && isUIntType l.type)

/-- Well-formedness of one layout entry relative to the whole layout:
no transform hooks; length fields are unsigned primitives whose source is
a string or array field; enum entries carry an unsigned-based enum
definition and no length relation; string and array fields declare no
length relation themselves but have a length field elsewhere; no float
payloads; and the recorded slot size agrees with the wire type. -/
def wfEntry (env : FfiEnv) (layout : List LayoutEntry) (e : LayoutEntry) : Bool :=
  e.packTransform.isNone && e.unpackTransform.isNone &&
  match e.kind with
  | .primitive =>
    (e.size == primitiveSizes env.ps e.type) &&
    (match e.lengthOf with
      | some src =>
        isUIntType e.type &&
        layout.any (fun s => s.name == src && (s.kind == .char_ptr || s.kind == .array))
      | none => !isFloatType e.type)
  | .enum =>
    (e.size == primitiveSizes env.ps e.type) && e.lengthOf.isNone &&
    (match e.enumDef with
      | some ed => isUIntType ed.type && ed.type == e.type
      | none => false)
  | .char_ptr => (e.size == env.ps) && e.lengthOf.isNone && hasLenField layout e.name
  | .array =>
    (e.size == env.ps) && e.lengthOf.isNone && hasLenField layout e.name &&
    !isFloatType e.type

/-- Well-formedness of a struct definition: no reduceValue normalizer,
distinct field names, every entry well formed, and a size bound keeping
the 32-bit offset arithmetic of alignOffset exact. -/
def wfStruct (env : FfiEnv) (fields : List FieldDef) (opts : StructDefOptions) : Bool :=
  opts.reduceValue.isNone &&
  ((layoutOf env.ps fields).map (·.name)).Nodup &&
  (layoutOf env.ps fields).all (wfEntry env (layoutOf env.ps fields)) &&
  fields.length ≤ 2 ^ 24

/-- Conformance of one input field: length fields only constrain their
source (the derived length must fit the slot); enum fields hold a
declared name of a duplicate-free mapping whose value fits the slot;
string fields hold a string, array fields a list of well-typed elements;
all other primitives hold a well-typed in-range value. -/
def conformsEntry (env : FfiEnv) (input : Input) (e : LayoutEntry) : Bool :=
  match e.kind with
  | .primitive =>
    match e.lengthOf with
    | some src =>
      (match input src with
        | .str b => ((b.length : Int) < (2 : Int) ^ (8 * e.size) : Bool)
        | .arr xs => ((xs.length : Int) < (2 : Int) ^ (8 * e.size) : Bool)
        | _ => false)
    | none => typedPrim env e.type (resolveValue input e)
  | .enum =>
    match e.enumDef, resolveValue input e with
    | some ed, .str name =>
      decide (ed.mapping.map (·.1)).Nodup && decide (ed.mapping.map (·.2)).Nodup &&
      (match ed.mapping.find? (fun p => p.1 == name) with
        | some pr => decide ((0 : Int) ≤ pr.2) && decide (pr.2 < (2 : Int) ^ (8 * e.size))
        | none => false)
    | _, _ => false
  | .char_ptr =>
    match input e.name with
    | .str _ => true
    | _ => false
  | .array =>
    match input e.name with
    | .arr xs => xs.all (typedPrim env e.type)
    | _ => false

/-- Conformance of an input to a layout. -/
def conforms (env : FfiEnv) (layout : List LayoutEntry) (input : Input) : Bool :=
  layout.all (conformsEntry env input)

/-- The declared length of the source field of a length relation. -/
def srcLenOf (input : Input) (src : String) : Nat :=
  match input src with
  | .str b => b.length
  | .arr xs => xs.length
  | _ => 0

/-- The JavaScript value a read of a given unsigned wire type produces
for a natural number: a bigint for u64, a number otherwise. -/
def numericOfType (t : PrimitiveType) (n : Nat) : JsValue :=
  if t = .u64 then .big n else .num n

/-- The logical value unpack is expected to produce for one field: the
recomputed source length for a derived length field, and the
default-resolved input value for every other field. -/
def expectedOut (input : Input) (e : LayoutEntry) : JsValue :=
  match e.kind, e.lengthOf with
  | .primitive, some src => numericOfType e.type (srcLenOf input src)
  | _, _ => resolveValue input e

/-- Total number of payload bytes pack allocates for an input, an upper
bound used to keep allocated pointer values inside the pointer range. -/
def payloadBytes (env : FfiEnv) (input : Input) : List LayoutEntry → Nat
  | [] => 0
  | e :: rest =>
    (match e.kind, input e.name with
      | .char_ptr, .str b => b.length
      | .array, .arr xs => xs.length * primitiveSizes env.ps e.type
      | _, _ => 0) + payloadBytes env input rest

/-- Slots laid out left to right from a lower bound: each entry starts at
or after the bound and the next bound is its end. -/
def ChainedFrom (lo : Nat) : List LayoutEntry → Prop
  | [] => True
  | e :: rest => lo ≤ e.offset ∧ ChainedFrom (e.offset + e.size) rest

/-- The slot size an entry of each kind must record. -/
def sizeTypeOk (ps : Nat) (e : LayoutEntry) : Prop :=
  match e.kind with
  | .primitive => e.size = primitiveSizes ps e.type
  | .enum => e.size = primitiveSizes ps e.type
  | .char_ptr => e.size = ps
  | .array => e.size = ps

/-- What pack guarantees about the final buffer and heap at one entry,
dispatched on the entry kind (passed explicitly so proofs can rewrite
it): the slot holds the bytes writePrimitive produced for the packed
value, and a string or array payload sits in the heap at the stored
nonzero pointer.  Empty strings and arrays store a null pointer. -/
def PackedEntryOkK (env : FfiEnv) (input : Input) (buf : List Nat) (h : Heap)
    (e : LayoutEntry) : FieldKind → Prop
  | .primitive =>
    match e.lengthOf with
    | some src =>
      ∃ bs, writePrimitive env e.type (.num (srcLenOf input src)) = some bs ∧
        readBytes buf e.offset e.size = bs
    | none =>
      ∃ bs, writePrimitive env e.type (resolveValue input e) = some bs ∧
        readBytes buf e.offset e.size = bs
  | .enum =>
    ∃ ed v bs, e.enumDef = some ed ∧
      enumTo ed (resolveValue input e) = some v ∧
      writePrimitive env e.type (.num v) = some bs ∧
      readBytes buf e.offset e.size = bs
  | .char_ptr =>
    ∃ b, input e.name = .str b ∧
      ((b = [] ∧ ∃ bs, writePrimitive env .pointer (.num 0) = some bs ∧
          readBytes buf e.offset e.size = bs) ∨
        (b ≠ [] ∧ ∃ p bs, 1 ≤ p ∧ p + b.length ≤ h.length ∧
          writePrimitive env .pointer (.num p) = some bs ∧
          readBytes buf e.offset e.size = bs ∧
          readMem h p b.length = b))
  | .array =>
    ∃ xs chunks, input e.name = .arr xs ∧
      List.Forall₂ (fun x c => writePrimitive env e.type x = some c ∧
        c.length = primitiveSizes env.ps e.type) xs chunks ∧
      ((xs = [] ∧ ∃ bs, writePrimitive env .pointer (.num 0) = some bs ∧
          readBytes buf e.offset e.size = bs) ∨
        (xs ≠ [] ∧ ∃ p bs, 1 ≤ p ∧ p + chunks.flatten.length ≤ h.length ∧
          writePrimitive env .pointer (.num p) = some bs ∧
          readBytes buf e.offset e.size = bs ∧
          readMem h p chunks.flatten.length = chunks.flatten))

/-- The per-entry pack postcondition at the entry's own kind. -/
def PackedEntryOk (env : FfiEnv) (input : Input) (buf : List Nat) (h : Heap)
    (e : LayoutEntry) : Prop :=
  PackedEntryOkK env input buf h e e.kind

/-! ## Concrete examples

A 64-bit Deno host with both UnsafePointer accessors, a sample struct
definition exercising the field kinds, and the small concrete values the
counterexamples and witnesses below evaluate. -/

/-- A 64-bit Deno host with the pointer value and offset accessors. -/
def exEnv : FfiEnv := ⟨8, .deno, true, true⟩

/-- A sample struct: a u32 id, a string with its length field, and a u8
array with its count field. -/
def exFields : List FieldDef :=
  [ ⟨"id", .prim .u32, {}⟩,
    ⟨"name", .charPtr, {}⟩,
    ⟨"nameLen", .prim .u32, { lengthOf := some "name" }⟩,
    ⟨"tags", .arrayOf .u8, {}⟩,
    ⟨"tagCount", .prim .u32, { lengthOf := some "tags" }⟩ ]

/-- A sample input for exFields. -/
def exInput : Input := fun n =>
  if n = "id" then .num 7
  else if n = "name" then .str [104, 105]
  else if n = "tags" then .arr [.num 1, .num 2, .num 3]
  else (.undef : JsValue)

/-- The layout entry defineStruct resolves for the nameLen field of
exFields on the 64-bit host. -/
def exLenEntry : LayoutEntry :=
  { name := "nameLen", kind := .primitive, type := .u32, offset := 16, size := 4,
    optional := false, defaultValue := .undef, lengthOf := some "name",
    packTransform := none, unpackTransform := none, enumDef := none }

/-- A struct whose only field is a string with no declared or inferable
length field. -/
def cx1Fields : List FieldDef := [⟨"s", .charPtr, {}⟩]

/-- The one-byte string input for cx1Fields. -/
def cx1Input : Input := fun n => if n = "s" then .str [97] else (.undef : JsValue)

/-- An enum over u32 with two entries. -/
def exEnum : EnumDefM := ⟨.u32, [([97], 1), ([98], 2)]⟩

/-- A struct whose length field precedes its string field, for the
null-pointer unpack analysis. -/
def cx5Fields : List FieldDef :=
  [ ⟨"len", .prim .u32, { lengthOf := some "s" }⟩,
    ⟨"s", .charPtr, {}⟩ ]

/-- A packed cx5Fields buffer whose length slot holds 5 and whose
pointer slot holds null. -/
def cx5View : List Nat := [5, 0, 0, 0] ++ List.replicate 12 0

/-- The layout entry defineStruct resolves for the s field of cx5Fields
on the 64-bit host. -/
def cx5Entry : LayoutEntry :=
  { name := "s", kind := .char_ptr, type := .pointer, offset := 8, size := 8,
    optional := false, defaultValue := .undef, lengthOf := none,
    packTransform := none, unpackTransform := none, enumDef := none }

/-- A 64-bit Deno host without the UnsafePointer.offset accessor. -/
def cx6Env : FfiEnv := ⟨8, .deno, false, true⟩

/-- A ten-byte heap with distinct byte values. -/
def cx6Heap : Heap := [0, 1, 2, 3, 4, 5, 6, 7, 8, 9]

set_option maxRecDepth 4000

/-! ## Little-endian encoding lemmas -/

theorem encLE_length (w v : Nat) : (encLE w v).length = w := by
  induction w generalizing v with
  | zero => rfl
  | succ w ih => simp [encLE, ih]

theorem decLE_encLE (w v : Nat) (h : v < 2 ^ (8 * w)) : decLE (encLE w v) = v := by
  induction w generalizing v with
  | zero =>
    simp only [Nat.mul_zero, pow_zero, Nat.lt_one_iff] at h
    simp [encLE, decLE, h]
  | succ w ih =>
    have hdiv : v / 256 < 2 ^ (8 * w) := by
      have h256 : (256 : Nat) = 2 ^ 8 := by norm_num
      have : v < 2 ^ (8 * w) * 256 := by
        rw [h256, ← pow_add]
        have : 8 * w + 8 = 8 * (w + 1) := by ring
        rw [this]
        exact h
      omega
    simp only [encLE, decLE, ih (v / 256) hdiv]
    omega

theorem encLE_getD (w v i : Nat) (hi : i < w) :
    (encLE w v).getD i 0 = v / 2 ^ (8 * i) % 256 := by
  induction w generalizing v i with
  | zero => omega
  | succ w ih =>
    match i with
    | 0 => simp [encLE]
    | i + 1 =>
      have hi2 : i < w := by omega
      simp only [encLE, List.getD_cons_succ, ih (v / 256) i hi2]
      have : v / 256 / 2 ^ (8 * i) = v / 2 ^ (8 * (i + 1)) := by
        rw [Nat.div_div_eq_div_mul]
        congr 1
        have : 8 * (i + 1) = 8 + 8 * i := by ring
        rw [this, pow_add]
        norm_num
      rw [this]

theorem encLEI_eq_encLE (w : Nat) (v : Int) (h0 : 0 ≤ v) (h : v < (2 : Int) ^ (8 * w)) :
    encLEI w v = encLE w v.toNat := by
  unfold encLEI
  congr 1
  rw [Int.emod_eq_of_lt h0 h]

theorem decLE_encLEI (w : Nat) (v : Int) (h0 : 0 ≤ v) (h : v < (2 : Int) ^ (8 * w)) :
    decLE (encLEI w v) = v.toNat := by
  rw [encLEI_eq_encLE w v h0 h]
  apply decLE_encLE
  have hcast : ((2 ^ (8 * w) : Nat) : Int) = (2 : Int) ^ (8 * w) := by push_cast; ring
  omega

theorem encLEI_length (w : Nat) (v : Int) : (encLEI w v).length = w := by
  unfold encLEI
  exact encLE_length _ _

/-! ## Buffer splice lemmas -/

theorem writeBytes_length (buf bytes : List Nat) (off : Nat)
    (h : off + bytes.length ≤ buf.length) :
    (writeBytes buf off bytes).length = buf.length := by
  simp only [writeBytes, List.length_append, List.length_take, List.length_drop]
  omega

theorem readBytes_writeBytes_self (buf bytes : List Nat) (off : Nat)
    (h : off + bytes.length ≤ buf.length) :
    readBytes (writeBytes buf off bytes) off bytes.length = bytes := by
  simp only [writeBytes, readBytes, List.append_assoc]
  rw [List.drop_append_eq_append_drop]
  have hlt : (buf.take off).length = off := by
    simp only [List.length_take]
    omega
  rw [hlt, Nat.sub_self, List.drop_zero, List.drop_take, Nat.sub_self, List.take_zero,
    List.nil_append, List.take_append_eq_append_take, List.take_length, Nat.sub_self,
    List.take_zero, List.append_nil]

theorem readBytes_writeBytes_above (buf bytes : List Nat) (off1 len1 off2 : Nat)
    (hle : off1 + len1 ≤ off2) (hin : off2 ≤ buf.length) :
    readBytes (writeBytes buf off2 bytes) off1 len1 = readBytes buf off1 len1 := by
  simp only [writeBytes, readBytes, List.append_assoc]
  rw [List.drop_append_eq_append_drop]
  have hlt : (buf.take off2).length = off2 := by
    simp only [List.length_take]
    omega
  rw [hlt]
  have h1 : off1 - off2 = 0 := by omega
  rw [h1, List.drop_zero, List.take_append_eq_append_take]
  have h2 : (List.drop off1 (buf.take off2)).length = off2 - off1 := by
    simp only [List.length_drop, List.length_take]
    omega
  rw [h2]
  have h3 : len1 - (off2 - off1) = 0 := by omega
  rw [h3, List.take_zero, List.append_nil, List.drop_take, List.take_take]
  congr 1
  omega

/-! ## Heap lemmas -/

theorem readMem_append (h ext : Heap) (p len : Nat) (hin : p + len ≤ h.length) :
    readMem (h ++ ext) p len = readMem h p len := by
  simp only [readMem]
  rw [List.drop_append_eq_append_drop]
  have h1 : p - h.length = 0 := by omega
  rw [h1, List.drop_zero, List.take_append_eq_append_take]
  have h2 : (List.drop p h).length = h.length - p := by simp
  have h3 : len - (List.drop p h).length = 0 := by omega
  rw [h3, List.take_zero, List.append_nil]

theorem readMem_alloc (h : Heap) (b : List Nat) :
    readMem (h ++ b) h.length b.length = b := by
  simp [readMem]

theorem decLE_take_encLEI (w : Nat) (v : Int) :
    decLE ((encLEI w v).take w) = (v % (2 : Int) ^ (8 * w)).toNat := by
  have hlen := encLEI_length w v
  rw [List.take_of_length_le (le_of_eq hlen)]
  unfold encLEI
  apply decLE_encLE
  have hpos : (0 : Int) < (2 : Int) ^ (8 * w) := by positivity
  have h1 : 0 ≤ v % (2 : Int) ^ (8 * w) := Int.emod_nonneg v (ne_of_gt hpos)
  have h2 : v % (2 : Int) ^ (8 * w) < (2 : Int) ^ (8 * w) := Int.emod_lt_of_pos v hpos
  have hcast : ((2 ^ (8 * w) : Nat) : Int) = (2 : Int) ^ (8 * w) := by push_cast; ring
  omega

/-! ## Primitive round-trip lemmas -/

theorem prim_write_read (env : FfiEnv) (hps : env.ps = 4 ∨ env.ps = 8)
    (t : PrimitiveType) (v : JsValue) (ht : typedPrim env t v = true) :
    ∃ bs, writePrimitive env t v = some bs ∧ bs.length = primitiveSizes env.ps t ∧
      readPrimitive env t bs = v := by
  cases t with
  | u8 =>
    cases v <;> simp [typedPrim] at ht
    case num n =>
      refine ⟨_, rfl, encLEI_length _ _, ?_⟩
      simp only [readPrimitive, jsNum0]
      rw [decLE_take_encLEI]
      have hm : (2 : Int) ^ (8 * 1) = 256 := by norm_num
      rw [hm]
      congr 1
      omega
  | u16 =>
    cases v <;> simp [typedPrim] at ht
    case num n =>
      refine ⟨_, rfl, encLEI_length _ _, ?_⟩
      simp only [readPrimitive, jsNum0]
      rw [decLE_take_encLEI]
      have hm : (2 : Int) ^ (8 * 2) = 65536 := by norm_num
      rw [hm]
      congr 1
      omega
  | u32 =>
    cases v <;> simp [typedPrim] at ht
    case num n =>
      refine ⟨_, rfl, encLEI_length _ _, ?_⟩
      simp only [readPrimitive, jsNum0]
      rw [decLE_take_encLEI]
      have hm : (2 : Int) ^ (8 * 4) = 4294967296 := by norm_num
      rw [hm]
      congr 1
      omega
  | i16 =>
    cases v <;> simp [typedPrim] at ht
    case num n =>
      refine ⟨_, rfl, encLEI_length _ _, ?_⟩
      simp only [readPrimitive, jsNum0]
      rw [decLE_take_encLEI]
      have hm : (2 : Int) ^ (8 * 2) = 65536 := by norm_num
      rw [hm]
      unfold asSigned
      congr 1
      have h1 : 8 * 2 - 1 = 15 := by norm_num
      rw [h1]
      have h2 : (2 : Nat) ^ 15 = 32768 := by norm_num
      have h3 : (2 : Int) ^ (8 * 2) = 65536 := by norm_num
      rw [h2, h3]
      split_ifs <;> omega
  | i32 =>
    cases v <;> simp [typedPrim] at ht
    case num n =>
      refine ⟨_, rfl, encLEI_length _ _, ?_⟩
      simp only [readPrimitive, jsNum0]
      rw [decLE_take_encLEI]
      have hm : (2 : Int) ^ (8 * 4) = 4294967296 := by norm_num
      rw [hm]
      unfold asSigned
      congr 1
      have h1 : 8 * 4 - 1 = 31 := by norm_num
      rw [h1]
      have h2 : (2 : Nat) ^ 31 = 2147483648 := by norm_num
      have h3 : (2 : Int) ^ (8 * 4) = 4294967296 := by norm_num
      rw [h2, h3]
      split_ifs <;> omega
  | u64 =>
    cases v <;> simp [typedPrim] at ht
    case big n =>
      refine ⟨_, rfl, encLEI_length _ _, ?_⟩
      simp only [readPrimitive, jsBig0]
      rw [decLE_take_encLEI]
      have hm : (2 : Int) ^ (8 * 8) = 18446744073709551616 := by norm_num
      rw [hm]
      congr 1
      omega
  | bool_u8 =>
    cases v <;> simp [typedPrim] at ht
    case bool b =>
      refine ⟨_, rfl, ?_, ?_⟩
      · cases b <;> rfl
      · cases b <;> simp [readPrimitive, jsTruthy, decLE]
  | bool_u32 =>
    cases v <;> simp [typedPrim] at ht
    case bool b =>
      refine ⟨_, rfl, encLEI_length _ _, ?_⟩
      simp only [readPrimitive, jsTruthy]
      rw [decLE_take_encLEI]
      cases b <;> norm_num
  | f32 => cases v <;> simp [typedPrim] at ht
  | f64 => cases v <;> simp [typedPrim] at ht
  | pointer =>
    cases v <;> simp [typedPrim] at ht
    case big n =>
      rcases hps with hps | hps <;>
        · refine ⟨_, rfl, ?_, ?_⟩
          · simp only [writePrimitive, pointerToBigInt, Option.map_some, hps]
            norm_num [encLEI_length]
            rfl
          · rw [hps] at ht ⊢
            simp only [readPrimitive, primitiveSizes]
            norm_num
            rw [decLE_take_encLEI]
            norm_num at ht ⊢
            congr 1
            omega

theorem lenfield_write_read (env : FfiEnv) (t : PrimitiveType) (len : Nat)
    (hu : isUIntType t = true)
    (hlen : (len : Int) < (2 : Int) ^ (8 * primitiveSizes env.ps t)) :
    ∃ bs, writePrimitive env t (.num len) = some bs ∧
      bs.length = primitiveSizes env.ps t ∧
      readPrimitive env t bs = numericOfType t len := by
  cases t <;> simp [isUIntType] at hu
  case u8 =>
    refine ⟨_, rfl, encLEI_length _ _, ?_⟩
    simp only [readPrimitive, jsNum0, numericOfType, primitiveSizes] at hlen ⊢
    norm_num
    rw [decLE_take_encLEI]
    norm_num at hlen ⊢
    congr 1
    omega
  case u16 =>
    refine ⟨_, rfl, encLEI_length _ _, ?_⟩
    simp only [readPrimitive, jsNum0, numericOfType, primitiveSizes] at hlen ⊢
    norm_num
    rw [decLE_take_encLEI]
    norm_num at hlen ⊢
    congr 1
    omega
  case u32 =>
    refine ⟨_, rfl, encLEI_length _ _, ?_⟩
    simp only [readPrimitive, jsNum0, numericOfType, primitiveSizes] at hlen ⊢
    norm_num
    rw [decLE_take_encLEI]
    norm_num at hlen ⊢
    congr 1
    omega
  case u64 =>
    refine ⟨_, rfl, encLEI_length _ _, ?_⟩
    simp only [readPrimitive, jsBig0, numericOfType, primitiveSizes] at hlen ⊢
    norm_num
    rw [decLE_take_encLEI]
    norm_num at hlen ⊢
    congr 1
    omega

theorem jsNum0_numericOfType (t : PrimitiveType) (n : Nat) :
    jsNum0 (numericOfType t n) = n := by
  unfold numericOfType
  split_ifs <;> rfl

theorem ptr_write_read (env : FfiEnv) (hps : env.ps = 4 ∨ env.ps = 8) (p : Nat)
    (hp : (p : Int) < (2 : Int) ^ (8 * env.ps)) :
    ∃ bs, writePrimitive env .pointer (.num p) = some bs ∧ bs.length = env.ps ∧
      readPrimitive env .pointer bs = .big p := by
  rcases hps with hps | hps <;>
    · refine ⟨_, rfl, ?_, ?_⟩
      · simp only [writePrimitive, pointerToBigInt, Option.map_some, hps]
        norm_num [encLEI_length]
      · rw [hps] at hp ⊢
        simp only [readPrimitive]
        norm_num
        rw [decLE_take_encLEI]
        norm_num at hp ⊢
        omega

/-! ## alignOffset lemmas -/

theorem testBit_div_pow (k x i : Nat) : (x / 2 ^ k).testBit i = x.testBit (i + k) := by
  induction k generalizing i with
  | zero => simp
  | succ k ih =>
    have : x / 2 ^ (k + 1) = x / 2 ^ k / 2 := by
      rw [Nat.div_div_eq_div_mul, pow_succ]
    rw [this, Nat.testBit_div_two, ih (i + 1)]
    congr 1
    omega

theorem land_mask (k K x : Nat) (hk : k ≤ K) (hx : x < 2 ^ K) :
    Nat.land x (2 ^ K - 2 ^ k) = x - x % 2 ^ k := by
  have hmask : 2 ^ K - 2 ^ k = (2 ^ (K - k) - 1) <<< k := by
    rw [Nat.shiftLeft_eq, Nat.sub_mul, one_mul, ← pow_add]
    congr 2
    omega
  have hrhs : x - x % 2 ^ k = (x / 2 ^ k) <<< k := by
    have hmod := Nat.div_add_mod x (2 ^ k)
    rw [Nat.shiftLeft_eq, Nat.mul_comm (x / 2 ^ k) (2 ^ k)]
    omega
  rw [hmask, hrhs]
  apply Nat.eq_of_testBit_eq
  intro i
  have hland : (Nat.land x ((2 ^ (K - k) - 1) <<< k)).testBit i
      = (x.testBit i && (((2 ^ (K - k) - 1) <<< k).testBit i)) := by
    exact Nat.testBit_land x _ i
  rw [hland, Nat.testBit_shiftLeft, Nat.testBit_shiftLeft,
    Nat.testBit_two_pow_sub_one, testBit_div_pow]
  by_cases hik : k ≤ i
  · by_cases hiK : i < K
    · have h1 : i - k < K - k := by omega
      have h2 : i - k + k = i := by omega
      simp [hik, h1, h2]
    · have hxi : x.testBit i = false := by
        apply Nat.testBit_lt_two_pow
        calc x < 2 ^ K := hx
          _ ≤ 2 ^ i := Nat.pow_le_pow_right (by norm_num) (by omega)
      have h1 : ¬ (i - k < K - k) := by omega
      have h2 : i - k + k = i := by omega
      simp [hik, h1, h2, hxi]
  · simp [hik]

/-- On a power-of-two alignment and without 32-bit overflow, alignOffset
is the arithmetic round-up to the next multiple of the alignment. -/
theorem alignOffset_eq (offset align k : Nat) (hk : align = 2 ^ k) (hk32 : k ≤ 32)
    (hov : offset + align ≤ 2 ^ 32) :
    alignOffset offset align = (offset + align - 1) - (offset + align - 1) % align := by
  have ha1 : 1 ≤ align := by
    rw [hk]
    exact Nat.one_le_two_pow
  unfold alignOffset
  have h1 : (offset + align - 1) % 2 ^ 32 = offset + align - 1 :=
    Nat.mod_eq_of_lt (by omega)
  have h2 : (2 ^ 32 - align) % 2 ^ 32 = 2 ^ 32 - align :=
    Nat.mod_eq_of_lt (by omega)
  rw [h1, h2, hk]
  exact land_mask k 32 (offset + 2 ^ k - 1) hk32 (by omega)

theorem alignOffset_le (offset align k : Nat) (hk : align = 2 ^ k) (hk32 : k ≤ 32)
    (hov : offset + align ≤ 2 ^ 32) :
    offset ≤ alignOffset offset align ∧ alignOffset offset align < offset + align := by
  rw [alignOffset_eq offset align k hk hk32 hov]
  have ha1 : 1 ≤ align := by
    rw [hk]
    exact Nat.one_le_two_pow
  have hmod : (offset + align - 1) % align < align := Nat.mod_lt _ (by omega)
  omega

theorem alignOffset_dvd (offset align k : Nat) (hk : align = 2 ^ k) (hk32 : k ≤ 32)
    (hov : offset + align ≤ 2 ^ 32) :
    alignOffset offset align % align = 0 := by
  rw [alignOffset_eq offset align k hk hk32 hov]
  have := Nat.div_add_mod (offset + align - 1) align
  have heq : offset + align - 1 - (offset + align - 1) % align
      = align * ((offset + align - 1) / align) := by omega
  rw [heq]
  exact Nat.mul_mod_right _ _

/-! ## Layout geometry -/

theorem primitiveSizes_pow (ps : Nat) (hps : ps = 4 ∨ ps = 8) (t : PrimitiveType) :
    ∃ k, k ≤ 3 ∧ primitiveSizes ps t = 2 ^ k := by
  rcases hps with rfl | rfl <;> cases t <;>
    first
      | exact ⟨0, by norm_num, rfl⟩
      | exact ⟨1, by norm_num, rfl⟩
      | exact ⟨2, by norm_num, rfl⟩
      | exact ⟨3, by norm_num, rfl⟩

theorem resolveSize_pow (ps : Nat) (hps : ps = 4 ∨ ps = 8) (ft : FieldType) :
    ∃ k, k ≤ 3 ∧ (resolveFieldType ps ft).2.2.1 = 2 ^ k := by
  cases ft with
  | prim t => exact primitiveSizes_pow ps hps t
  | charPtr =>
    rcases hps with rfl | rfl
    · exact ⟨2, by norm_num, rfl⟩
    · exact ⟨3, by norm_num, rfl⟩
  | enum e => exact primitiveSizes_pow ps hps e.type
  | arrayOf t =>
    rcases hps with rfl | rfl
    · exact ⟨2, by norm_num, rfl⟩
    · exact ⟨3, by norm_num, rfl⟩

theorem align_pow (ps : Nat) (hps : ps = 4 ∨ ps = 8) (k : Nat) (hk : k ≤ 3) :
    ∃ j, j ≤ 3 ∧ min (2 ^ k) ps = 2 ^ j ∧ max 1 (min (2 ^ k) ps) = min (2 ^ k) ps := by
  rcases hps with rfl | rfl <;> interval_cases k <;>
    first
      | exact ⟨0, by decide, by decide, by decide⟩
      | exact ⟨1, by decide, by decide, by decide⟩
      | exact ⟨2, by decide, by decide, by decide⟩
      | exact ⟨3, by decide, by decide, by decide⟩

theorem layoutFields_geometry (ps : Nat) (hps : ps = 4 ∨ ps = 8) :
    ∀ (fields : List FieldDef) (off : Nat),
      off + 16 * fields.length ≤ 2 ^ 31 →
      ChainedFrom off (layoutFields ps fields off).1 ∧
      off ≤ (layoutFields ps fields off).2 ∧
      (layoutFields ps fields off).2 ≤ off + 16 * fields.length ∧
      ∀ e ∈ (layoutFields ps fields off).1,
        e.offset + e.size ≤ (layoutFields ps fields off).2 ∧
        1 ≤ e.size ∧ e.size ≤ 8 ∧
        e.offset % min e.size ps = 0 ∧
        sizeTypeOk ps e := by
  intro fields
  induction fields with
  | nil =>
    intro off hoff
    simp [layoutFields, ChainedFrom]
  | cons f rest ih =>
    intro off hoff
    obtain ⟨k, hk3, hsz⟩ := resolveSize_pow ps hps f.type
    have hps48 : ps = 4 ∨ ps = 8 := hps
    have hpsle : 4 ≤ ps ∧ ps ≤ 8 := by rcases hps with rfl | rfl <;> norm_num
    obtain ⟨j, hj3, hminj, hmaxmin⟩ := align_pow ps hps k hk3
    set size := (resolveFieldType ps f.type).2.2.1 with hsizedef
    have hszle : size ≤ 8 := by
      rw [hsz]
      calc (2 : Nat) ^ k ≤ 2 ^ 3 := Nat.pow_le_pow_right (by norm_num) hk3
        _ = 8 := by norm_num
    have hszge : 1 ≤ size := by
      rw [hsz]
      exact Nat.one_le_two_pow
    set align := max 1 (min size ps) with halign
    have halignmin : align = min size ps := by rw [halign, hsz, hmaxmin]
    have halignpow : align = 2 ^ j := by rw [halignmin, hsz, hminj]
    have halignle : align ≤ 8 := by
      rw [halignpow]
      calc (2 : Nat) ^ j ≤ 2 ^ 3 := Nat.pow_le_pow_right (by norm_num) hj3
        _ = 8 := by norm_num
    have hoffb : off + align ≤ 2 ^ 32 := by
      have : off ≤ 2 ^ 31 := by
        have := hoff
        simp only [List.length_cons] at this
        omega
      have h32 : (2 : Nat) ^ 31 + 8 ≤ 2 ^ 32 := by norm_num
      omega
    have hle := alignOffset_le off align j halignpow (by omega) hoffb
    have hdvd := alignOffset_dvd off align j halignpow (by omega) hoffb
    set off1 := alignOffset off align with hoff1
    have hnext : off1 + size ≤ off + 16 := by omega
    have hrest : off1 + size + 16 * rest.length ≤ 2 ^ 31 := by
      simp only [List.length_cons] at hoff
      omega
    obtain ⟨ihch, ihge, ihle, ihent⟩ := ih (off1 + size) hrest
    -- unfold one step of layoutFields
    have hunf : layoutFields ps (f :: rest) off =
        ({ name := f.name
           kind := (resolveFieldType ps f.type).1
           type := (resolveFieldType ps f.type).2.1
           offset := off1
           size := size
           optional := f.opts.optional
           defaultValue := f.opts.defaultValue
           lengthOf := f.opts.lengthOf
           packTransform := f.opts.packTransform
           unpackTransform := f.opts.unpackTransform
           enumDef := (resolveFieldType ps f.type).2.2.2 } ::
          (layoutFields ps rest (off1 + size)).1,
         (layoutFields ps rest (off1 + size)).2) := by
      simp only [layoutFields]
    rw [hunf]
    refine ⟨⟨hle.1, ihch⟩, ?_, ?_, ?_⟩
    · calc off ≤ off1 := hle.1
        _ ≤ off1 + size := Nat.le_add_right _ _
        _ ≤ _ := ihge
    · simp only [List.length_cons]
      omega
    · intro e he
      rcases List.mem_cons.mp he with rfl | hmem
      · refine ⟨ihge, hszge, hszle, ?_, ?_⟩
        · show off1 % min size ps = 0
          rw [← halignmin]
          exact hdvd
        · cases hft : f.type <;>
            simp only [sizeTypeOk, resolveFieldType, hft] <;>
            simp [hsizedef, hft, resolveFieldType]
      · obtain ⟨h1, h2, h3, h4, h5⟩ := ihent e hmem
        exact ⟨by omega, h2, h3, h4, h5⟩

/-! ## Lookup and association-list lemmas -/

theorem find_unique {α : Type} (l : List α) (p : α → Bool) (a : α)
    (ha : a ∈ l) (hpa : p a = true)
    (huniq : ∀ b ∈ l, p b = true → b = a) :
    l.find? p = some a := by
  induction l with
  | nil => cases ha
  | cons x xs ih =>
    by_cases hx : p x = true
    · have hxa : x = a := huniq x (List.mem_cons_self x xs) hx
      subst hxa
      simp [List.find?_cons_of_pos, hx]
    · have hxf : p x = false := by simp_all
      rw [List.find?_cons_of_neg _ (by simp [hxf])]
      have hax : a ≠ x := fun hcontr => hx (hcontr ▸ hpa)
      have ha2 : a ∈ xs := by
        rcases List.mem_cons.mp ha with rfl | hmem
        · exact absurd rfl hax
        · exact hmem
      exact ih ha2 (fun b hb hpb => huniq b (List.mem_cons_of_mem _ hb) hpb)

theorem byNameF_mem (layout : List LayoutEntry) (e : LayoutEntry)
    (hnd : (layout.map (·.name)).Nodup) (he : e ∈ layout) :
    byNameF layout e.name = some e := by
  unfold byNameF
  apply find_unique
  · exact List.mem_reverse.mpr he
  · simp
  · intro b hb hpb
    have hb2 : b ∈ layout := List.mem_reverse.mp hb
    have hname : b.name = e.name := by simpa using hpb
    exact List.inj_on_of_nodup_map hnd hb2 he hname

theorem enumTo_mem (ed : EnumDefM) (name : List Nat) (v : Int)
    (hnd : (ed.mapping.map (·.1)).Nodup) (hmem : (name, v) ∈ ed.mapping) :
    enumTo ed (.str name) = some v := by
  have hred : enumTo ed (.str name)
      = (ed.mapping.find? (fun p => p.1 == name)).map (·.2) := rfl
  rw [hred, find_unique ed.mapping _ (name, v) hmem (by simp) ?_]
  · rfl
  · intro b hb hpb
    have hname : b.1 = name := by simpa using hpb
    have hfst : b.1 = (name, v).1 := hname
    exact List.inj_on_of_nodup_map hnd hb hmem hfst

theorem enumFrom_mem (ed : EnumDefM) (name : List Nat) (v : Int)
    (hnd : (ed.mapping.map (·.2)).Nodup) (hmem : (name, v) ∈ ed.mapping) :
    enumFrom ed v = some name := by
  unfold enumFrom
  rw [find_unique ed.mapping.reverse _ (name, v) (List.mem_reverse.mpr hmem) (by simp) ?_]
  · rfl
  · intro b hb hpb
    have hb2 : b ∈ ed.mapping := List.mem_reverse.mp hb
    have hval : b.2 = v := by simpa using hpb
    have : b.2 = (name, v).2 := hval
    exact List.inj_on_of_nodup_map hnd hb2 hmem this

theorem lookupA_setA_self (out : OutRec) (k : String) (v : JsValue) :
    lookupA (setA out k v) k = some v := by
  induction out with
  | nil => simp [setA, lookupA]
  | cons kv rest ih =>
    by_cases hk : kv.1 = k
    · simp [setA, lookupA, hk]
    · simp [setA, lookupA, hk, ih]

theorem lookupA_setA_ne (out : OutRec) (k k2 : String) (v : JsValue) (h : k2 ≠ k) :
    lookupA (setA out k v) k2 = lookupA out k2 := by
  induction out with
  | nil => simp [setA, lookupA, Ne.symm h]
  | cons kv rest ih =>
    by_cases hk : kv.1 = k
    · subst hk
      simp [setA, lookupA, Ne.symm h]
    · simp only [setA, if_neg hk]
      by_cases hk2 : kv.1 = k2
      · simp [lookupA, hk2]
      · simp [lookupA, hk2, ih]

/-! ## Option mapM and flatten lemmas -/

theorem mapM_option_forall {α β : Type} (f : α → Option β) (P : α → β → Prop) :
    ∀ (xs : List α), (∀ x ∈ xs, ∃ c, f x = some c ∧ P x c) →
    ∃ cs, xs.mapM f = some cs ∧ List.Forall₂ P xs cs := by
  intro xs
  induction xs with
  | nil => exact fun _ => ⟨[], rfl, List.Forall₂.nil⟩
  | cons x xs ih =>
    intro hall
    obtain ⟨c, hc, hpc⟩ := hall x (by simp)
    obtain ⟨cs, hcs, hf⟩ := ih (fun y hy => hall y (by simp [hy]))
    refine ⟨c :: cs, ?_, List.Forall₂.cons hpc hf⟩
    show (x :: xs).mapM f = some (c :: cs)
    have hcs2 : List.mapM.loop f xs [] = some cs := hcs
    rw [List.mapM_cons]
    simp [hc, hcs2]

theorem forall₂_mem_right {α β : Type} {P : α → β → Prop} :
    ∀ {xs : List α} {cs : List β}, List.Forall₂ P xs cs →
      ∀ c ∈ cs, ∃ x, x ∈ xs ∧ P x c := by
  intro xs cs hf
  induction hf with
  | nil => simp
  | cons hpc _ ih =>
    intro c hc
    rcases List.mem_cons.mp hc with rfl | hmem
    · exact ⟨_, by simp, hpc⟩
    · obtain ⟨x, hx, hpx⟩ := ih c hmem
      exact ⟨x, by simp [hx], hpx⟩

theorem flatten_length_const {esz : Nat} :
    ∀ (cs : List (List Nat)), (∀ c ∈ cs, c.length = esz) →
      cs.flatten.length = cs.length * esz := by
  intro cs
  induction cs with
  | nil => simp
  | cons c cs ih =>
    intro hall
    simp only [List.flatten_cons, List.length_append, List.length_cons,
      ih (fun d hd => hall d (by simp [hd])), hall c (by simp)]
    ring

/-! ## packFieldValue lemmas -/

theorem typedPrim_not_undef (env : FfiEnv) (t : PrimitiveType) (v : JsValue)
    (h : typedPrim env t v = true) : isUndef v = false := by
  cases t <;> cases v <;> simp_all [typedPrim, isUndef]

theorem packFieldValue_plain (input : Input) (e : LayoutEntry)
    (htr : e.packTransform = none) (hlen : e.lengthOf = none)
    (hnu : isUndef (resolveValue input e) = false) :
    packFieldValue input e = resolveValue input e := by
  unfold packFieldValue
  cases hk : e.kind <;> simp [htr, hlen, hk, hnu]

theorem packFieldValue_derived (input : Input) (e : LayoutEntry) (src : String)
    (hk : e.kind = .primitive) (hl : e.lengthOf = some src) (htr : e.packTransform = none)
    (hsa : (∃ b, input src = .str b) ∨ (∃ xs, input src = .arr xs)) :
    packFieldValue input e = .num (srcLenOf input src) := by
  unfold packFieldValue srcLenOf
  rcases hsa with ⟨b, hb⟩ | ⟨xs2, hxs⟩
  · simp [hk, hl, htr, hb, isUndef]
  · simp [hk, hl, htr, hxs, isUndef]

/-! ## Pack correctness -/

theorem writePointer_some (env : FfiEnv) (hps : env.ps = 4 ∨ env.ps = 8) (p : Nat) :
    ∃ bs, writePrimitive env .pointer (.num p) = some bs ∧ bs.length = env.ps := by
  rcases hps with hps | hps <;> exact ⟨_, rfl, by simp [hps, encLEI_length]⟩

theorem uint_write_read (env : FfiEnv) (t : PrimitiveType) (v : Int)
    (hu : isUIntType t = true) (h0 : 0 ≤ v)
    (hv : v < (2 : Int) ^ (8 * primitiveSizes env.ps t)) :
    ∃ bs, writePrimitive env t (.num v) = some bs ∧
      bs.length = primitiveSizes env.ps t ∧
      readPrimitive env t bs = numericOfType t v.toNat := by
  cases t <;> simp [isUIntType] at hu
  case u8 =>
    refine ⟨_, rfl, encLEI_length _ _, ?_⟩
    simp only [readPrimitive, jsNum0, numericOfType, primitiveSizes] at hv ⊢
    norm_num
    rw [decLE_take_encLEI]
    norm_num at hv ⊢
    congr 1
    omega
  case u16 =>
    refine ⟨_, rfl, encLEI_length _ _, ?_⟩
    simp only [readPrimitive, jsNum0, numericOfType, primitiveSizes] at hv ⊢
    norm_num
    rw [decLE_take_encLEI]
    norm_num at hv ⊢
    congr 1
    omega
  case u32 =>
    refine ⟨_, rfl, encLEI_length _ _, ?_⟩
    simp only [readPrimitive, jsNum0, numericOfType, primitiveSizes] at hv ⊢
    norm_num
    rw [decLE_take_encLEI]
    norm_num at hv ⊢
    congr 1
    omega
  case u64 =>
    refine ⟨_, rfl, encLEI_length _ _, ?_⟩
    simp only [readPrimitive, jsBig0, numericOfType, primitiveSizes] at hv ⊢
    norm_num
    rw [decLE_take_encLEI]
    norm_num at hv ⊢
    congr 1
    omega

/-- What one packed entry contributes: its slot bytes, a possible payload
extension of the heap, and the per-entry postcondition. -/
theorem packEntry_ok (env : FfiEnv) (hps : env.ps = 4 ∨ env.ps = 8)
    (L : List LayoutEntry) (byName : String → Option LayoutEntry) (input : Input)
    (e : LayoutEntry) (buf : List Nat) (h : Heap)
    (hin : e.offset + e.size ≤ buf.length)
    (hh : 1 ≤ h.length)
    (hwfe : wfEntry env L e = true)
    (hcfe : conformsEntry env input e = true) :
    ∃ bytes ext,
      packEntry env byName input e buf h = some (writeBytes buf e.offset bytes, h ++ ext) ∧
      bytes.length = e.size ∧
      ext.length ≤ (match e.kind, input e.name with
        | .char_ptr, .str b => b.length
        | .array, .arr xs => xs.length * primitiveSizes env.ps e.type
        | _, _ => 0) ∧
      PackedEntryOk env input (writeBytes buf e.offset bytes) (h ++ ext) e := by
  have htr : e.packTransform = none := by
    unfold wfEntry at hwfe
    cases e.kind <;> simp_all
  have hutr : e.unpackTransform = none := by
    unfold wfEntry at hwfe
    cases e.kind <;> simp_all
  cases hk : e.kind with
  | primitive =>
    unfold wfEntry at hwfe
    rw [hk] at hwfe
    unfold conformsEntry at hcfe
    rw [hk] at hcfe
    cases hlof : e.lengthOf with
    | some src =>
      rw [hlof] at hwfe hcfe
      simp only [Bool.and_eq_true, beq_iff_eq] at hwfe
      obtain ⟨-, hsz, hut, -⟩ := hwfe
      -- conformance gives the source shape and the bound
      have hcfe2 : (match input src with
          | JsValue.str b => decide ((b.length : Int) < (2 : Int) ^ (8 * e.size))
          | JsValue.arr xs => decide ((xs.length : Int) < (2 : Int) ^ (8 * e.size))
          | _ => false) = true := hcfe
      have hsa : ((∃ b, input src = .str b) ∨ (∃ xs, input src = .arr xs)) ∧
          ((srcLenOf input src : Int) < (2 : Int) ^ (8 * e.size)) := by
        cases hsrc : input src <;> rw [hsrc] at hcfe2 <;> simp at hcfe2 <;>
          simp [srcLenOf, hsrc, hcfe2]
      have hval := packFieldValue_derived input e src hk hlof htr hsa.1
      obtain ⟨bs, hw, hlen, hread⟩ :=
        uint_write_read env e.type (srcLenOf input src) hut (by positivity)
          (by rw [← hsz]; exact hsa.2)
      refine ⟨bs, [], ?_, by rw [hlen, hsz], by simp, ?_⟩
      · simp only [packEntry, hk, hval, hw, List.append_nil]
        rfl
      · unfold PackedEntryOk
        rw [hk]
        simp only [PackedEntryOkK, hlof]
        have hfit : e.offset + bs.length ≤ buf.length := by rw [hlen, ← hsz]; exact hin
        refine ⟨bs, hw, ?_⟩
        rw [hsz, ← hlen]
        exact readBytes_writeBytes_self buf bs e.offset hfit
    | none =>
      rw [hlof] at hwfe hcfe
      simp only [Bool.and_eq_true, beq_iff_eq] at hwfe
      obtain ⟨-, hsz, -⟩ := hwfe
      have hcfe2 : typedPrim env e.type (resolveValue input e) = true := hcfe
      have hnu := typedPrim_not_undef env e.type _ hcfe2
      have hval := packFieldValue_plain input e htr hlof hnu
      obtain ⟨bs, hw, hlen, hread⟩ := prim_write_read env hps e.type _ hcfe2
      refine ⟨bs, [], ?_, by rw [hlen, hsz], by simp, ?_⟩
      · simp only [packEntry, hk, hval, hw, List.append_nil]
        rfl
      · unfold PackedEntryOk
        rw [hk]
        simp only [PackedEntryOkK, hlof]
        have hfit : e.offset + bs.length ≤ buf.length := by rw [hlen, ← hsz]; exact hin
        refine ⟨bs, hw, ?_⟩
        rw [hsz, ← hlen]
        exact readBytes_writeBytes_self buf bs e.offset hfit
  | enum =>
    unfold wfEntry at hwfe
    rw [hk] at hwfe
    simp only [Bool.and_eq_true] at hwfe
    obtain ⟨⟨-, -⟩, ⟨⟨hszb, hlofb⟩, hedb⟩⟩ := hwfe
    have hsz : e.size = primitiveSizes env.ps e.type := by simpa using hszb
    have hlof : e.lengthOf = none := by simpa using hlofb
    cases hedq : e.enumDef with
    | none =>
      rw [hedq] at hedb
      simp at hedb
    | some ed =>
      rw [hedq] at hedb
      simp only [Bool.and_eq_true, beq_iff_eq] at hedb
      obtain ⟨hut, hedt⟩ := hedb
      unfold conformsEntry at hcfe
      rw [hk, hedq] at hcfe
      cases hres : resolveValue input e <;> rw [hres] at hcfe <;> simp at hcfe
      case str name =>
        obtain ⟨⟨hnd1, hnd2⟩, hfind⟩ := hcfe
        cases hf : ed.mapping.find? (fun p => p.1 == name) with
        | none =>
          rw [hf] at hfind
          simp at hfind
        | some pr =>
          rw [hf] at hfind
          simp only [Bool.and_eq_true, decide_eq_true_eq] at hfind
          have hto : enumTo ed (.str name) = some pr.2 := by
            show (ed.mapping.find? (fun p => p.1 == name)).map (·.2) = some pr.2
            rw [hf]
            rfl
          have hnu : isUndef (resolveValue input e) = false := by rw [hres]; rfl
          have hval := packFieldValue_plain input e htr hlof hnu
          obtain ⟨bs, hw, hlen, hread⟩ :=
            uint_write_read env e.type pr.2 (hedt ▸ hut) hfind.1
              (by rw [← hsz]; exact hfind.2)
          refine ⟨bs, [], ?_, by rw [hlen, hsz], by simp, ?_⟩
          · simp only [packEntry, hk, hedq, hval, hres, hto, List.append_nil]
            simp [hw]
          · unfold PackedEntryOk
            rw [hk]
            simp only [PackedEntryOkK]
            refine ⟨ed, pr.2, bs, hedq, by rw [hres]; exact hto, hw, ?_⟩
            have hfit : e.offset + bs.length ≤ buf.length := by rw [hlen, ← hsz]; exact hin
            rw [hsz, ← hlen]
            exact readBytes_writeBytes_self buf bs e.offset hfit
  | char_ptr =>
    unfold wfEntry at hwfe
    rw [hk] at hwfe
    simp only [Bool.and_eq_true] at hwfe
    obtain ⟨⟨-, -⟩, ⟨⟨hszb, hlofb⟩, -⟩⟩ := hwfe
    have hsz : e.size = env.ps := by simpa using hszb
    have hlof : e.lengthOf = none := by simpa using hlofb
    unfold conformsEntry at hcfe
    rw [hk] at hcfe
    cases hstr : input e.name <;> rw [hstr] at hcfe <;> simp at hcfe
    case str b =>
      have hres : resolveValue input e = .str b := by
        unfold resolveValue
        rw [hstr]
        simp [isUndef]
      have hnu : isUndef (resolveValue input e) = false := by rw [hres]; rfl
      have hval := packFieldValue_plain input e htr hlof hnu
      by_cases hb : b = []
      · subst hb
        obtain ⟨bs0, hw0, hl0⟩ := writePointer_some env hps 0
        refine ⟨bs0, [], ?_, by rw [hl0, hsz], by simp [hstr], ?_⟩
        · have hw00 : writePrimitive env .pointer (.num 0) = some bs0 := by
            simpa using hw0
          simp [packEntry, hk, hval, hres, hlof, jsToStr, packLengthWrite, hw00]
        · unfold PackedEntryOk
          rw [hk]
          simp only [PackedEntryOkK]
          refine ⟨[], hstr, .inl ⟨rfl, bs0, hw0, ?_⟩⟩
          have hfit : e.offset + bs0.length ≤ buf.length := by rw [hl0, ← hsz]; exact hin
          rw [hsz, ← hl0]
          exact readBytes_writeBytes_self buf bs0 e.offset hfit
      · have hlb : ¬ b.length = 0 := by simpa [List.length_eq_zero] using hb
        obtain ⟨bs, hw, hl⟩ := writePointer_some env hps h.length
        refine ⟨bs, b, ?_, by rw [hl, hsz], by simp [hstr], ?_⟩
        · simp [packEntry, hk, hval, hres, hlof, jsToStr, packLengthWrite, allocBytes,
            if_neg hlb, hw, hb]
        · unfold PackedEntryOk
          rw [hk]
          simp only [PackedEntryOkK]
          refine ⟨b, hstr, .inr ⟨hb, h.length, bs, hh, ?_, hw, ?_, ?_⟩⟩
          · simp [List.length_append]
          · have hfit : e.offset + bs.length ≤ buf.length := by rw [hl, ← hsz]; exact hin
            rw [hsz, ← hl]
            exact readBytes_writeBytes_self buf bs e.offset hfit
          · exact readMem_alloc h b
  | array =>
    unfold wfEntry at hwfe
    rw [hk] at hwfe
    simp only [Bool.and_eq_true] at hwfe
    obtain ⟨⟨-, -⟩, ⟨⟨⟨hszb, hlofb⟩, -⟩, -⟩⟩ := hwfe
    have hsz : e.size = env.ps := by simpa using hszb
    have hlof : e.lengthOf = none := by simpa using hlofb
    unfold conformsEntry at hcfe
    rw [hk] at hcfe
    cases harr : input e.name <;> rw [harr] at hcfe <;> simp at hcfe
    case arr xs =>
      have hres : resolveValue input e = .arr xs := by
        unfold resolveValue
        rw [harr]
        simp [isUndef]
      have hnu : isUndef (resolveValue input e) = false := by rw [hres]; rfl
      have hval := packFieldValue_plain input e htr hlof hnu
      have htyped : ∀ x ∈ xs, typedPrim env e.type x = true := by
        intro x hx
        exact hcfe x hx
      obtain ⟨chunks, hmapM, hfa⟩ := mapM_option_forall (writePrimitive env e.type)
        (fun x c => writePrimitive env e.type x = some c ∧
          c.length = primitiveSizes env.ps e.type) xs
        (fun x hx => by
          obtain ⟨c, hc, hl, -⟩ := prim_write_read env hps e.type x (htyped x hx)
          exact ⟨c, hc, hc, hl⟩)
      have hchlen : ∀ c ∈ chunks, c.length = primitiveSizes env.ps e.type := by
        intro c hc
        obtain ⟨x, -, -, hcl⟩ := forall₂_mem_right hfa c hc
        exact hcl
      have hflat : chunks.flatten.length = xs.length * primitiveSizes env.ps e.type := by
        rw [flatten_length_const chunks hchlen, hfa.length_eq]
      have hpayload : packArrayPayload env e.type xs = some chunks.flatten := by
        unfold packArrayPayload
        rw [hmapM]
        rfl
      by_cases hxs : xs = []
      · subst hxs
        obtain ⟨bs0, hw0, hl0⟩ := writePointer_some env hps 0
        refine ⟨bs0, [], ?_, by rw [hl0, hsz], by simp [harr], ?_⟩
        · have hw00 : writePrimitive env .pointer (.num 0) = some bs0 := by
            simpa using hw0
          simp [packEntry, hk, hval, hres, hlof, hpayload, packLengthWrite, hw00]
        · unfold PackedEntryOk
          rw [hk]
          simp only [PackedEntryOkK]
          cases hfa
          refine ⟨[], [], harr, List.Forall₂.nil, .inl ⟨rfl, bs0, hw0, ?_⟩⟩
          have hfit : e.offset + bs0.length ≤ buf.length := by rw [hl0, ← hsz]; exact hin
          rw [hsz, ← hl0]
          exact readBytes_writeBytes_self buf bs0 e.offset hfit
      · have hlx : ¬ xs.length = 0 := by simpa [List.length_eq_zero] using hxs
        obtain ⟨bs, hw, hl⟩ := writePointer_some env hps h.length
        refine ⟨bs, chunks.flatten, ?_, by rw [hl, hsz], by simp [harr, hflat], ?_⟩
        · simp [packEntry, hk, hval, hres, hlof, hpayload, packLengthWrite, allocBytes,
            if_neg hlx, hw, hxs]
        · unfold PackedEntryOk
          rw [hk]
          simp only [PackedEntryOkK]
          refine ⟨xs, chunks, harr, hfa, .inr ⟨hxs, h.length, bs, hh, ?_, hw, ?_, ?_⟩⟩
          · simp [List.length_append]
          · have hfit : e.offset + bs.length ≤ buf.length := by rw [hl, ← hsz]; exact hin
            rw [hsz, ← hl]
            exact readBytes_writeBytes_self buf bs e.offset hfit
          · exact readMem_alloc h chunks.flatten

/-- The per-entry postcondition survives writes above the slot and heap
extension. -/
theorem PackedEntryOkK_mono (env : FfiEnv) (input : Input) (buf buf2 : List Nat)
    (h : Heap) (ext : List Nat) (e : LayoutEntry) (k : FieldKind)
    (hslice : readBytes buf2 e.offset e.size = readBytes buf e.offset e.size)
    (hok : PackedEntryOkK env input buf h e k) :
    PackedEntryOkK env input buf2 (h ++ ext) e k := by
  cases k with
  | primitive =>
    unfold PackedEntryOkK at hok ⊢
    cases hl : e.lengthOf with
    | some src =>
      try rw [hl] at hok
      have hok2 : ∃ bs, writePrimitive env e.type (.num (srcLenOf input src)) = some bs ∧
          readBytes buf e.offset e.size = bs := hok
      obtain ⟨bs, hw, hsl⟩ := hok2
      exact ⟨bs, hw, by rw [hslice]; exact hsl⟩
    | none =>
      try rw [hl] at hok
      have hok2 : ∃ bs, writePrimitive env e.type (resolveValue input e) = some bs ∧
          readBytes buf e.offset e.size = bs := hok
      obtain ⟨bs, hw, hsl⟩ := hok2
      exact ⟨bs, hw, by rw [hslice]; exact hsl⟩
  | enum =>
    unfold PackedEntryOkK at hok ⊢
    obtain ⟨ed, v, bs, hed, hto, hw, hsl⟩ := hok
    exact ⟨ed, v, bs, hed, hto, hw, by rw [hslice]; exact hsl⟩
  | char_ptr =>
    unfold PackedEntryOkK at hok ⊢
    obtain ⟨b, hb, hcase⟩ := hok
    refine ⟨b, hb, ?_⟩
    rcases hcase with ⟨hbe, bs, hw, hsl⟩ | ⟨hne, p, bs, hp1, hplen, hw, hsl, hmem⟩
    · exact .inl ⟨hbe, bs, hw, by rw [hslice]; exact hsl⟩
    · refine .inr ⟨hne, p, bs, hp1, ?_, hw, by rw [hslice]; exact hsl, ?_⟩
      · calc p + b.length ≤ h.length := hplen
          _ ≤ (h ++ ext).length := by simp
      · rw [readMem_append h ext p b.length hplen]
        exact hmem
  | array =>
    unfold PackedEntryOkK at hok ⊢
    obtain ⟨xs, chunks, hxs, hfa, hcase⟩ := hok
    refine ⟨xs, chunks, hxs, hfa, ?_⟩
    rcases hcase with ⟨hbe, bs, hw, hsl⟩ | ⟨hne, p, bs, hp1, hplen, hw, hsl, hmem⟩
    · exact .inl ⟨hbe, bs, hw, by rw [hslice]; exact hsl⟩
    · refine .inr ⟨hne, p, bs, hp1, ?_, hw, by rw [hslice]; exact hsl, ?_⟩
      · calc p + chunks.flatten.length ≤ h.length := hplen
          _ ≤ (h ++ ext).length := by simp
      · rw [readMem_append h ext p chunks.flatten.length hplen]
        exact hmem

/-- The per-entry postcondition survives writes above the slot and heap
extension. -/
theorem PackedEntryOk_mono (env : FfiEnv) (input : Input) (buf buf2 : List Nat)
    (h : Heap) (ext : List Nat) (e : LayoutEntry)
    (hslice : readBytes buf2 e.offset e.size = readBytes buf e.offset e.size)
    (hok : PackedEntryOk env input buf h e) :
    PackedEntryOk env input buf2 (h ++ ext) e :=
  PackedEntryOkK_mono env input buf buf2 h ext e e.kind hslice hok

/-- Pack correctness over a chained entry list: the loop succeeds, only
appends to the heap, leaves bytes below the window untouched, and
establishes the per-entry postcondition for every entry. -/
theorem packFields_ok (env : FfiEnv) (hps : env.ps = 4 ∨ env.ps = 8)
    (L : List LayoutEntry) (byName : String → Option LayoutEntry) (input : Input) :
    ∀ (entries : List LayoutEntry) (lo : Nat) (buf : List Nat) (h : Heap),
      ChainedFrom lo entries →
      (∀ e ∈ entries, e.offset + e.size ≤ buf.length) →
      (∀ e ∈ entries, wfEntry env L e = true) →
      (∀ e ∈ entries, conformsEntry env input e = true) →
      1 ≤ h.length →
      ∃ buf2 ext,
        packFields env byName input entries buf h = some (buf2, h ++ ext) ∧
        buf2.length = buf.length ∧
        ext.length ≤ payloadBytes env input entries ∧
        (∀ off len, off + len ≤ lo → readBytes buf2 off len = readBytes buf off len) ∧
        (∀ e ∈ entries, PackedEntryOk env input buf2 (h ++ ext) e) := by
  intro entries
  induction entries with
  | nil =>
    intro lo buf h _ _ _ _ _
    exact ⟨buf, [], by simp [packFields], rfl, by simp [payloadBytes],
      fun _ _ _ => rfl, by simp⟩
  | cons e rest ih =>
    intro lo buf h hch hin hwf hcf hh
    obtain ⟨hlo, hch2⟩ := hch
    obtain ⟨bytes, ext1, hpe, hblen, hext1, hok⟩ :=
      packEntry_ok env hps L byName input e buf h (hin e (by simp)) hh
        (hwf e (by simp)) (hcf e (by simp))
    have hbuf1len : (writeBytes buf e.offset bytes).length = buf.length :=
      writeBytes_length buf bytes e.offset (by rw [hblen]; exact hin e (by simp))
    have hh1 : 1 ≤ (h ++ ext1).length := by
      simp only [List.length_append]
      omega
    obtain ⟨buf2, ext2, hpf, hb2len, hext2, hpres, hoks⟩ :=
      ih (e.offset + e.size) (writeBytes buf e.offset bytes) (h ++ ext1) hch2
        (fun x hx => by rw [hbuf1len]; exact hin x (by simp [hx]))
        (fun x hx => hwf x (by simp [hx]))
        (fun x hx => hcf x (by simp [hx])) hh1
    refine ⟨buf2, ext1 ++ ext2, ?_, by rw [hb2len, hbuf1len], ?_, ?_, ?_⟩
    · show (packEntry env byName input e buf h).bind
        (fun bh => packFields env byName input rest bh.1 bh.2) = _
      rw [hpe, Option.some_bind, hpf, List.append_assoc]
    · simp only [payloadBytes, List.length_append]
      omega
    · intro off len hol
      rw [hpres off len (by omega)]
      exact readBytes_writeBytes_above buf bytes off len e.offset (by omega)
        (by have := hin e (by simp); omega)
    · intro x hx
      rcases List.mem_cons.mp hx with rfl | hmem
      · have hslice : readBytes buf2 x.offset x.size
            = readBytes (writeBytes buf x.offset bytes) x.offset x.size :=
          hpres x.offset x.size (le_refl _)
        have hmono := PackedEntryOk_mono env input (writeBytes buf x.offset bytes) buf2
          (h ++ ext1) ext2 x hslice hok
        rwa [List.append_assoc] at hmono
      · have hthis := hoks x hmem
        rwa [List.append_assoc] at hthis

/-! ## Unpack correctness -/

theorem toArrayBuffer_zero (env : FfiEnv) (h : Heap) (p len : Nat) :
    toArrayBuffer env h p 0 len = readMem h p len := by
  unfold toArrayBuffer
  cases env.runtime <;> simp

theorem inferred_finds (env : FfiEnv) (L : List LayoutEntry) (target : String)
    (hwf : ∀ x ∈ L, wfEntry env L x = true)
    (hex : hasLenField L target = true) :
    ∃ l, l ∈ L ∧ l.kind = .primitive ∧ l.lengthOf = some target ∧
      isUIntType l.type = true ∧ l.size = primitiveSizes env.ps l.type ∧
      inferredLengthFieldFor L target = some l.name := by
  unfold hasLenField at hex
  rw [List.any_eq_true] at hex
  obtain ⟨c, hc, hpc⟩ := hex
  simp only [Bool.and_eq_true, beq_iff_eq] at hpc
  obtain ⟨⟨hck, hclen⟩, hcut⟩ := hpc
  have hsome : (L.reverse.find? (fun x =>
      (x.kind == .primitive || x.kind == .enum) && x.lengthOf == some target)).isSome := by
    rw [List.find?_isSome]
    exact ⟨c, List.mem_reverse.mpr hc, by simp [hck, hclen]⟩
  obtain ⟨fe, hfe⟩ := Option.isSome_iff_exists.mp hsome
  have hp := List.find?_some hfe
  have hm : fe ∈ L := List.mem_reverse.mp (List.mem_of_find?_eq_some hfe)
  simp only [Bool.and_eq_true, Bool.or_eq_true, beq_iff_eq] at hp
  obtain ⟨hke, hlen⟩ := hp
  have hwfe := hwf fe hm
  have hkp : fe.kind = .primitive := by
    rcases hke with hke | hke
    · exact hke
    · exfalso
      unfold wfEntry at hwfe
      rw [hke] at hwfe
      simp only [Bool.and_eq_true] at hwfe
      obtain ⟨⟨-, -⟩, ⟨⟨-, hlofn⟩, -⟩⟩ := hwfe
      rw [Option.isNone_iff_eq_none] at hlofn
      rw [hlofn] at hlen
      cases hlen
  unfold wfEntry at hwfe
  rw [hkp, hlen] at hwfe
  simp only [Bool.and_eq_true, beq_iff_eq] at hwfe
  obtain ⟨-, hsz, hut, -⟩ := hwfe
  refine ⟨fe, hm, hkp, hlen, hut, hsz, ?_⟩
  unfold inferredLengthFieldFor
  rw [hfe]
  rfl

theorem unpack_array_elems (env : FfiEnv) (hps : env.ps = 4 ∨ env.ps = 8)
    (t : PrimitiveType) :
    ∀ (xs : List JsValue) (chunks : List (List Nat)),
      List.Forall₂ (fun x c => writePrimitive env t x = some c ∧
        c.length = primitiveSizes env.ps t) xs chunks →
      (∀ x ∈ xs, typedPrim env t x = true) →
      (List.range xs.length).map (fun i =>
        readPrimitive env t (readBytes chunks.flatten (i * primitiveSizes env.ps t)
          (primitiveSizes env.ps t))) = xs := by
  intro xs chunks hfa
  induction hfa with
  | nil => simp
  | @cons x c xs2 cs2 hxc hrest ih =>
    intro htyped
    obtain ⟨hw, hcl⟩ := hxc
    have hreadc : readPrimitive env t c = x := by
      obtain ⟨bs2, hw2, -, hr2⟩ := prim_write_read env hps t x (htyped x (by simp))
      rw [hw] at hw2
      injection hw2 with hbs
      rw [hbs]
      exact hr2
    simp only [List.length_cons, List.range_succ_eq_map, List.map_cons, List.map_map]
    congr 1
    · show readPrimitive env t
        (readBytes (c ++ cs2.flatten) (0 * primitiveSizes env.ps t)
          (primitiveSizes env.ps t)) = x
      unfold readBytes
      rw [Nat.zero_mul, List.drop_zero, List.take_append_eq_append_take, ← hcl,
        List.take_length, Nat.sub_self, List.take_zero, List.append_nil]
      exact hreadc
    · show (List.range xs2.length).map
        ((fun i => readPrimitive env t (readBytes (c ++ cs2.flatten)
          (i * primitiveSizes env.ps t) (primitiveSizes env.ps t))) ∘ Nat.succ) = xs2
      have hshift : ∀ i : Nat,
          readBytes (c ++ cs2.flatten) (Nat.succ i * primitiveSizes env.ps t)
            (primitiveSizes env.ps t)
          = readBytes cs2.flatten (i * primitiveSizes env.ps t)
            (primitiveSizes env.ps t) := by
        intro i
        unfold readBytes
        rw [List.drop_append_eq_append_drop, List.drop_eq_nil_of_le, List.nil_append]
        · have harith : Nat.succ i * primitiveSizes env.ps t - c.length
              = i * primitiveSizes env.ps t := by
            rw [hcl, Nat.succ_mul]
            omega
          rw [harith]
        · rw [hcl, Nat.succ_mul]
          omega
      calc (List.range xs2.length).map
            ((fun i => readPrimitive env t (readBytes (c ++ cs2.flatten)
              (i * primitiveSizes env.ps t) (primitiveSizes env.ps t))) ∘ Nat.succ)
          = (List.range xs2.length).map (fun i =>
              readPrimitive env t (readBytes cs2.flatten
                (i * primitiveSizes env.ps t) (primitiveSizes env.ps t))) := by
            apply List.map_congr_left
            intro i _
            simp only [Function.comp_apply, hshift i]
        _ = xs2 := ih (fun y hy => htyped y (by simp [hy]))

theorem getLenV_none_lookup (env : FfiEnv) (view : List Nat)
    (byName : String → Option LayoutEntry) (out : OutRec) (fn : String)
    (hlk : lookupA out fn = none) :
    getLengthFieldValue env view byName out (some fn)
    = (match byName fn with
      | none => 0
      | some f => jsNum0 (readPrimitive env f.type (readBytes view f.offset f.size))) := by
  simp only [getLengthFieldValue, hlk]

theorem getLenV_some_lookup (env : FfiEnv) (view : List Nat)
    (byName : String → Option LayoutEntry) (out : OutRec) (fn : String) (v : JsValue)
    (hlk : lookupA out fn = some v) (hnu : isUndef v = false) :
    getLengthFieldValue env view byName out (some fn) = jsNum0 v := by
  simp only [getLengthFieldValue, hlk]
  cases v <;> simp_all [isUndef]

theorem numericOfType_not_undef (t : PrimitiveType) (n : Nat) :
    isUndef (numericOfType t n) = false := by
  unfold numericOfType
  split_ifs <;> rfl

/-- Decoding one entry of a packed buffer produces the expected logical
value, given the pack postconditions for the whole layout and the decoded
values accumulated so far. -/
theorem unpackEntry_correct (env : FfiEnv) (hps : env.ps = 4 ∨ env.ps = 8)
    (L : List LayoutEntry) (input : Input) (view : List Nat) (h : Heap)
    (hnd : (L.map (·.name)).Nodup)
    (hwf : ∀ e ∈ L, wfEntry env L e = true)
    (hcf : ∀ e ∈ L, conformsEntry env input e = true)
    (hok : ∀ e ∈ L, PackedEntryOk env input view h e)
    (hbound : ((h.length : Int) < (2 : Int) ^ (8 * env.ps)))
    (pre : List LayoutEntry) (out : OutRec)
    (hpre : ∀ e ∈ pre, lookupA out e.name = some (expectedOut input e))
    (hnone : ∀ e ∈ L, e ∉ pre → lookupA out e.name = none)
    (hpreL : ∀ e ∈ pre, e ∈ L)
    (cur : LayoutEntry) (hcur : cur ∈ L) :
    unpackEntry env view h (byNameF L) (inferredLengthFieldFor L) out cur
      = some (expectedOut input cur) := by
  have hwfc := hwf cur hcur
  have hcfc := hcf cur hcur
  have hokc := hok cur hcur
  unfold PackedEntryOk at hokc
  -- a reusable fact: the value of a length field for a given target
  have hlen_lookup : ∀ (l : LayoutEntry) (target : String),
      l ∈ L → l.kind = .primitive → l.lengthOf = some target →
      isUIntType l.type = true → l.size = primitiveSizes env.ps l.type →
      ((srcLenOf input target : Int) < (2 : Int) ^ (8 * l.size)) →
      getLengthFieldValue env view (byNameF L) out (some l.name)
        = srcLenOf input target := by
    intro l target hlL hlk hllof hlut hlsz hlb
    have hokl := hok l hlL
    unfold PackedEntryOk at hokl
    rw [hlk] at hokl
    have hokl2 : ∃ bs, writePrimitive env l.type (.num (srcLenOf input target))
        = some bs ∧ readBytes view l.offset l.size = bs := by
      unfold PackedEntryOkK at hokl
      rw [hllof] at hokl
      exact hokl
    obtain ⟨bs, hwb, hsl⟩ := hokl2
    obtain ⟨bs2, hwb2, hbl2, hread2⟩ := uint_write_read env l.type (srcLenOf input target)
      hlut (by positivity) (by rw [← hlsz]; exact hlb)
    rw [hwb] at hwb2
    injection hwb2 with hbs
    subst hbs
    have hexp : expectedOut input l = numericOfType l.type (srcLenOf input target) := by
      unfold expectedOut
      rw [hlk, hllof]
    cases hlkup : lookupA out l.name with
    | some w =>
      have hmemp : l ∈ pre := by
        by_contra hnp
        have hcontr := hnone l hlL hnp
        rw [hlkup] at hcontr
        cases hcontr
      have hw := hpre l hmemp
      rw [hlkup] at hw
      injection hw with hw
      rw [getLenV_some_lookup env view (byNameF L) out l.name w hlkup
        (by rw [hw, hexp]; exact numericOfType_not_undef _ _)]
      rw [hw, hexp, jsNum0_numericOfType]
    | none =>
      rw [getLenV_none_lookup env view (byNameF L) out l.name hlkup]
      rw [byNameF_mem L l hnd hlL]
      show jsNum0 (readPrimitive env l.type (readBytes view l.offset l.size))
        = (srcLenOf input target : Int)
      rw [hsl, hread2]
      have hconv : ((srcLenOf input target : Int)).toNat = srcLenOf input target := by
        omega
      rw [hconv, jsNum0_numericOfType]
  cases hk : cur.kind with
  | primitive =>
    rw [hk] at hokc
    unfold unpackEntry
    rw [hk]
    cases hlof : cur.lengthOf with
    | some src =>
      have hokc2 : ∃ bs, writePrimitive env cur.type (.num (srcLenOf input src))
          = some bs ∧ readBytes view cur.offset cur.size = bs := by
        unfold PackedEntryOkK at hokc
        rw [hlof] at hokc
        exact hokc
      obtain ⟨bs, hwb, hsl⟩ := hokc2
      unfold wfEntry at hwfc
      rw [hk, hlof] at hwfc
      simp only [Bool.and_eq_true, beq_iff_eq] at hwfc
      obtain ⟨-, hsz, hut, -⟩ := hwfc
      unfold conformsEntry at hcfc
      rw [hk, hlof] at hcfc
      have hcfc2 : (match input src with
          | JsValue.str b => decide ((b.length : Int) < (2 : Int) ^ (8 * cur.size))
          | JsValue.arr xs => decide ((xs.length : Int) < (2 : Int) ^ (8 * cur.size))
          | _ => false) = true := hcfc
      have hbnd : ((srcLenOf input src : Int) < (2 : Int) ^ (8 * cur.size)) := by
        cases hsrc : input src <;> rw [hsrc] at hcfc2 <;> simp at hcfc2 <;>
          simp [srcLenOf, hsrc, hcfc2]
      obtain ⟨bs2, hwb2, hbl2, hread2⟩ := uint_write_read env cur.type
        (srcLenOf input src) hut (by positivity) (by rw [← hsz]; exact hbnd)
      rw [hwb] at hwb2
      injection hwb2 with hbs
      subst hbs
      show some (readPrimitive env cur.type (readBytes view cur.offset cur.size))
        = some (expectedOut input cur)
      rw [hsl, hread2]
      unfold expectedOut
      rw [hk, hlof]
      have hconv2 : ((srcLenOf input src : Int)).toNat = srcLenOf input src := by omega
      rw [hconv2]
    | none =>
      have hokc2 : ∃ bs, writePrimitive env cur.type (resolveValue input cur)
          = some bs ∧ readBytes view cur.offset cur.size = bs := by
        unfold PackedEntryOkK at hokc
        rw [hlof] at hokc
        exact hokc
      obtain ⟨bs, hwb, hsl⟩ := hokc2
      unfold conformsEntry at hcfc
      rw [hk, hlof] at hcfc
      obtain ⟨bs2, hwb2, hbl2, hread2⟩ := prim_write_read env hps cur.type _ hcfc
      rw [hwb] at hwb2
      injection hwb2 with hbs
      subst hbs
      show some (readPrimitive env cur.type (readBytes view cur.offset cur.size))
        = some (expectedOut input cur)
      rw [hsl, hread2]
      unfold expectedOut
      rw [hk, hlof]
  | enum =>
    rw [hk] at hokc
    unfold unpackEntry
    rw [hk]
    have hokc2 : ∃ ed v bs, cur.enumDef = some ed ∧
        enumTo ed (resolveValue input cur) = some v ∧
        writePrimitive env cur.type (.num v) = some bs ∧
        readBytes view cur.offset cur.size = bs := hokc
    obtain ⟨ed, v, bs, hedq, hto, hwb, hsl⟩ := hokc2
    unfold wfEntry at hwfc
    rw [hk, hedq] at hwfc
    simp only [Bool.and_eq_true, beq_iff_eq] at hwfc
    obtain ⟨-, ⟨hsz, -⟩, hut, hedt⟩ := hwfc
    unfold conformsEntry at hcfc
    rw [hk, hedq] at hcfc
    cases hres : resolveValue input cur <;> rw [hres] at hcfc <;> simp at hcfc
    case str name =>
      obtain ⟨⟨hnd1, hnd2⟩, hfind⟩ := hcfc
      cases hf : ed.mapping.find? (fun p => p.1 == name) with
      | none =>
        rw [hf] at hfind
        simp at hfind
      | some pr =>
        rw [hf] at hfind
        simp only [Bool.and_eq_true, decide_eq_true_eq] at hfind
        have hto2 : enumTo ed (.str name) = some pr.2 := by
          show (ed.mapping.find? (fun p => p.1 == name)).map (·.2) = some pr.2
          rw [hf]
          rfl
        rw [hres] at hto
        rw [hto2] at hto
        injection hto with hv
        subst hv
        obtain ⟨bs2, hwb2, hbl2, hread2⟩ := uint_write_read env cur.type pr.2
          (hedt ▸ hut) hfind.1 (by rw [← hsz]; exact hfind.2)
        rw [hwb] at hwb2
        injection hwb2 with hbs
        subst hbs
        have hprm : pr ∈ ed.mapping := List.mem_of_find?_eq_some hf
        have hpr1 : pr.1 = name := by
          have := List.find?_some hf
          simpa using this
        have hfrom : enumFrom ed pr.2 = some name := by
          have hmempair : (name, pr.2) ∈ ed.mapping := by
            rw [← hpr1]
            exact hprm
          exact enumFrom_mem ed name pr.2 hnd2 hmempair
        show (match cur.enumDef with
          | none => none
          | some ed2 =>
            (enumFrom ed2 (jsNum0 (readPrimitive env cur.type
              (readBytes view cur.offset cur.size)))).map JsValue.str)
          = some (expectedOut input cur)
        rw [hedq, hsl, hread2, jsNum0_numericOfType]
        have hconv : ((pr.2.toNat : Int)) = pr.2 := by omega
        rw [hconv]
        show Option.map JsValue.str (enumFrom ed pr.2) = some (expectedOut input cur)
        rw [hfrom]
        unfold expectedOut
        rw [hk, hres]
        rfl
  | char_ptr =>
    rw [hk] at hokc
    unfold unpackEntry
    rw [hk]
    have hokc2 : ∃ b, input cur.name = .str b ∧
        ((b = [] ∧ ∃ bs, writePrimitive env .pointer (.num 0) = some bs ∧
            readBytes view cur.offset cur.size = bs) ∨
          (b ≠ [] ∧ ∃ p bs, 1 ≤ p ∧ p + b.length ≤ h.length ∧
            writePrimitive env .pointer (.num p) = some bs ∧
            readBytes view cur.offset cur.size = bs ∧
            readMem h p b.length = b)) := hokc
    obtain ⟨b, hstr, hcase⟩ := hokc2
    unfold wfEntry at hwfc
    rw [hk] at hwfc
    simp only [Bool.and_eq_true] at hwfc
    obtain ⟨⟨-, -⟩, ⟨⟨hszb, hlofb⟩, hhas⟩⟩ := hwfc
    have hsz : cur.size = env.ps := by simpa using hszb
    have hlof : cur.lengthOf = none := by simpa using hlofb
    have hres : resolveValue input cur = .str b := by
      unfold resolveValue
      rw [hstr]
      simp [isUndef]
    have hexp : expectedOut input cur = .str b := by
      unfold expectedOut
      rw [hk, hres]
    obtain ⟨l, hlL, hlk2, hllof, hlut, hlsz, hinf⟩ := inferred_finds env L cur.name hwf hhas
    have hcfl := hcf l hlL
    unfold conformsEntry at hcfl
    rw [hlk2, hllof] at hcfl
    have hcfl2 : (match input cur.name with
        | JsValue.str b2 => decide ((b2.length : Int) < (2 : Int) ^ (8 * l.size))
        | JsValue.arr xs2 => decide ((xs2.length : Int) < (2 : Int) ^ (8 * l.size))
        | _ => false) = true := hcfl
    have hsrcl : srcLenOf input cur.name = b.length := by
      unfold srcLenOf
      rw [hstr]
    have hbnd : ((srcLenOf input cur.name : Int) < (2 : Int) ^ (8 * l.size)) := by
      rw [hstr] at hcfl2
      simp only [decide_eq_true_eq] at hcfl2
      rw [hsrcl]
      exact hcfl2
    have hlenval := hlen_lookup l cur.name hlL hlk2 hllof hlut hlsz hbnd
    rcases hcase with ⟨hbe, bs, hwb, hsl⟩ | ⟨hbne, p, bs, hp1, hplen, hwb, hsl, hmem⟩
    · -- empty string: stored pointer 0
      obtain ⟨bs2, hwb2, hbl2, hread2⟩ := ptr_write_read env hps 0 (by positivity)
      norm_num at hwb2
      rw [hwb] at hwb2
      injection hwb2 with hbs
      subst hbs
      show (let p := jsBig0 (readPrimitive env .pointer
          (readBytes view cur.offset cur.size))
        let lenField := cur.lengthOf.or (inferredLengthFieldFor L cur.name)
        let len := getLengthFieldValue env view (byNameF L) out lenField
        if p = 0 ∨ len ≤ 0 then some (JsValue.str [])
        else some (.str (toArrayBuffer env h p.toNat 0 len.toNat)))
        = some (expectedOut input cur)
      rw [hsl, hread2]
      simp only [jsBig0]
      rw [hexp, hbe]
      simp
    · -- nonempty string: stored pointer p, payload in the heap
      have hpbound : ((p : Int) < (2 : Int) ^ (8 * env.ps)) := by
        have hble : 1 ≤ b.length := by
          cases b with
          | nil => exact absurd rfl hbne
          | cons x xs => simp
        have : p < h.length := by omega
        omega
      obtain ⟨bs2, hwb2, hbl2, hread2⟩ := ptr_write_read env hps p hpbound
      rw [hwb] at hwb2
      injection hwb2 with hbs
      subst hbs
      show (let pv := jsBig0 (readPrimitive env .pointer
          (readBytes view cur.offset cur.size))
        let lenField := cur.lengthOf.or (inferredLengthFieldFor L cur.name)
        let len := getLengthFieldValue env view (byNameF L) out lenField
        if pv = 0 ∨ len ≤ 0 then some (JsValue.str [])
        else some (.str (toArrayBuffer env h pv.toNat 0 len.toNat)))
        = some (expectedOut input cur)
      rw [hsl, hread2]
      simp only [jsBig0]
      rw [hlof]
      simp only [Option.none_or]
      rw [hinf, hlenval, hsrcl]
      have hp0 : ¬ ((p : Int) = 0 ∨ (b.length : Int) ≤ 0) := by
        push_neg
        constructor
        · omega
        · have hble : 1 ≤ b.length := by
            cases b with
            | nil => exact absurd rfl hbne
            | cons x xs => simp
          omega
      rw [if_neg hp0]
      rw [hexp]
      congr 2
      rw [Int.toNat_natCast, Int.toNat_natCast, toArrayBuffer_zero]
      exact hmem
  | array =>
    rw [hk] at hokc
    unfold unpackEntry
    rw [hk]
    have hokc2 : ∃ xs chunks, input cur.name = .arr xs ∧
        List.Forall₂ (fun x c => writePrimitive env cur.type x = some c ∧
          c.length = primitiveSizes env.ps cur.type) xs chunks ∧
        ((xs = [] ∧ ∃ bs, writePrimitive env .pointer (.num 0) = some bs ∧
            readBytes view cur.offset cur.size = bs) ∨
          (xs ≠ [] ∧ ∃ p bs, 1 ≤ p ∧ p + chunks.flatten.length ≤ h.length ∧
            writePrimitive env .pointer (.num p) = some bs ∧
            readBytes view cur.offset cur.size = bs ∧
            readMem h p chunks.flatten.length = chunks.flatten)) := hokc
    obtain ⟨xs, chunks, harr, hfa, hcase⟩ := hokc2
    unfold wfEntry at hwfc
    rw [hk] at hwfc
    simp only [Bool.and_eq_true] at hwfc
    obtain ⟨⟨-, -⟩, ⟨⟨⟨hszb, hlofb⟩, hhas⟩, -⟩⟩ := hwfc
    have hsz : cur.size = env.ps := by simpa using hszb
    have hlof : cur.lengthOf = none := by simpa using hlofb
    have hres : resolveValue input cur = .arr xs := by
      unfold resolveValue
      rw [harr]
      simp [isUndef]
    have hexp : expectedOut input cur = .arr xs := by
      unfold expectedOut
      rw [hk, hres]
    obtain ⟨l, hlL, hlk2, hllof, hlut, hlsz, hinf⟩ := inferred_finds env L cur.name hwf hhas
    have hcfl := hcf l hlL
    unfold conformsEntry at hcfl
    rw [hlk2, hllof] at hcfl
    have hcfl2 : (match input cur.name with
        | JsValue.str b2 => decide ((b2.length : Int) < (2 : Int) ^ (8 * l.size))
        | JsValue.arr xs2 => decide ((xs2.length : Int) < (2 : Int) ^ (8 * l.size))
        | _ => false) = true := hcfl
    have hsrcl : srcLenOf input cur.name = xs.length := by
      unfold srcLenOf
      rw [harr]
    have hbnd : ((srcLenOf input cur.name : Int) < (2 : Int) ^ (8 * l.size)) := by
      rw [harr] at hcfl2
      simp only [decide_eq_true_eq] at hcfl2
      rw [hsrcl]
      exact hcfl2
    have hlenval := hlen_lookup l cur.name hlL hlk2 hllof hlut hlsz hbnd
    unfold conformsEntry at hcfc
    rw [hk, harr] at hcfc
    have htyped : ∀ x ∈ xs, typedPrim env cur.type x = true := by
      intro x hx
      have := hcfc
      rw [List.all_eq_true] at this
      exact this x hx
    have hchlen : ∀ c ∈ chunks, c.length = primitiveSizes env.ps cur.type := by
      intro c hc
      obtain ⟨x, -, -, hcl⟩ := forall₂_mem_right hfa c hc
      exact hcl
    have hflat : chunks.flatten.length = xs.length * primitiveSizes env.ps cur.type := by
      rw [flatten_length_const chunks hchlen, hfa.length_eq]
    rcases hcase with ⟨hbe, bs, hwb, hsl⟩ | ⟨hbne, p, bs, hp1, hplen, hwb, hsl, hmem⟩
    · obtain ⟨bs2, hwb2, hbl2, hread2⟩ := ptr_write_read env hps 0 (by positivity)
      norm_num at hwb2
      rw [hwb] at hwb2
      injection hwb2 with hbs
      subst hbs
      show (let pv := jsBig0 (readPrimitive env .pointer
          (readBytes view cur.offset cur.size))
        let lenField := cur.lengthOf.or (inferredLengthFieldFor L cur.name)
        let len := getLengthFieldValue env view (byNameF L) out lenField
        if pv = 0 ∨ len ≤ 0 then some (JsValue.arr [])
        else
          let elementSize := primitiveSizes env.ps cur.type
          let payload := toArrayBuffer env h pv.toNat 0 (len.toNat * elementSize)
          some (.arr ((List.range len.toNat).map (fun i =>
            readPrimitive env cur.type
              (readBytes payload (i * elementSize) elementSize)))))
        = some (expectedOut input cur)
      rw [hsl, hread2]
      simp only [jsBig0]
      rw [hexp, hbe]
      simp
    · have hxlen1 : 1 ≤ xs.length := by
        cases xs with
        | nil => exact absurd rfl hbne
        | cons x xs2 => simp
      have hpbound : ((p : Int) < (2 : Int) ^ (8 * env.ps)) := by
        have hfl1 : 1 ≤ chunks.flatten.length ∨ chunks.flatten.length = 0 := by omega
        have : p ≤ h.length := by omega
        have hple : (p : Int) ≤ (h.length : Int) := by exact_mod_cast this
        calc (p : Int) ≤ (h.length : Int) := hple
          _ < _ := hbound
      obtain ⟨bs2, hwb2, hbl2, hread2⟩ := ptr_write_read env hps p hpbound
      rw [hwb] at hwb2
      injection hwb2 with hbs
      subst hbs
      show (let pv := jsBig0 (readPrimitive env .pointer
          (readBytes view cur.offset cur.size))
        let lenField := cur.lengthOf.or (inferredLengthFieldFor L cur.name)
        let len := getLengthFieldValue env view (byNameF L) out lenField
        if pv = 0 ∨ len ≤ 0 then some (JsValue.arr [])
        else
          let elementSize := primitiveSizes env.ps cur.type
          let payload := toArrayBuffer env h pv.toNat 0 (len.toNat * elementSize)
          some (.arr ((List.range len.toNat).map (fun i =>
            readPrimitive env cur.type
              (readBytes payload (i * elementSize) elementSize)))))
        = some (expectedOut input cur)
      rw [hsl, hread2]
      simp only [jsBig0]
      rw [hlof]
      simp only [Option.none_or]
      rw [hinf, hlenval, hsrcl]
      have hp0 : ¬ ((p : Int) = 0 ∨ (xs.length : Int) ≤ 0) := by
        push_neg
        constructor
        · omega
        · omega
      rw [if_neg hp0]
      rw [hexp]
      congr 1
      congr 1
      have htn : ((p : Int)).toNat = p := Int.toNat_natCast p
      have htn2 : ((xs.length : Int)).toNat = xs.length := Int.toNat_natCast xs.length
      rw [htn, htn2, toArrayBuffer_zero, ← hflat, hmem]
      exact unpack_array_elems env hps cur.type xs chunks hfa htyped

/-- The unpack loop decodes every field to its expected logical value. -/
theorem unpackFields_ok (env : FfiEnv) (hps : env.ps = 4 ∨ env.ps = 8)
    (L : List LayoutEntry) (input : Input) (view : List Nat) (h : Heap)
    (hnd : (L.map (·.name)).Nodup)
    (hwf : ∀ e ∈ L, wfEntry env L e = true)
    (hcf : ∀ e ∈ L, conformsEntry env input e = true)
    (hok : ∀ e ∈ L, PackedEntryOk env input view h e)
    (hbound : ((h.length : Int) < (2 : Int) ^ (8 * env.ps))) :
    ∀ (suffix pre : List LayoutEntry) (out : OutRec),
      L = pre ++ suffix →
      (∀ e ∈ pre, lookupA out e.name = some (expectedOut input e)) →
      (∀ e ∈ L, e ∉ pre → lookupA out e.name = none) →
      ∃ out2,
        unpackFields env view h (byNameF L) (inferredLengthFieldFor L) suffix out
          = some out2 ∧
        ∀ e ∈ L, lookupA out2 e.name = some (expectedOut input e) := by
  intro suffix
  induction suffix with
  | nil =>
    intro pre out hsplit hpre hnone
    refine ⟨out, rfl, ?_⟩
    intro e he
    have hep : e ∈ pre := by
      rw [hsplit, List.append_nil] at he
      exact he
    exact hpre e hep
  | cons cur rest ih =>
    intro pre out hsplit hpre hnone
    have hcur : cur ∈ L := by
      rw [hsplit]
      simp
    have hpreL : ∀ e ∈ pre, e ∈ L := by
      intro e he
      rw [hsplit]
      simp [he]
    have hval := unpackEntry_correct env hps L input view h hnd hwf hcf hok hbound
      pre out hpre hnone hpreL cur hcur
    have hutr : cur.unpackTransform = none := by
      have hwfc := hwf cur hcur
      unfold wfEntry at hwfc
      cases cur.kind <;> simp_all
    have hinj := List.inj_on_of_nodup_map hnd
    have hcurname_notpre : cur.name ∉ pre.map (·.name) := by
      rw [hsplit, List.map_append, List.map_cons] at hnd
      have hd := List.nodup_append.mp hnd
      intro hmem
      exact hd.2.2 hmem (by simp)
    have hpre1 : ∀ e ∈ pre ++ [cur],
        lookupA (setA out cur.name (expectedOut input cur)) e.name
          = some (expectedOut input e) := by
      intro e he
      rcases List.mem_append.mp he with hep | hec
      · have hne : e.name ≠ cur.name := by
          intro heq
          apply hcurname_notpre
          rw [← heq]
          exact List.mem_map_of_mem _ hep
        rw [lookupA_setA_ne out cur.name e.name _ hne]
        exact hpre e hep
      · have heqc : e = cur := by simpa using hec
        subst heqc
        rw [lookupA_setA_self]
    have hnone1 : ∀ e ∈ L, e ∉ pre ++ [cur] →
        lookupA (setA out cur.name (expectedOut input cur)) e.name = none := by
      intro e heL hen
      have hne : e.name ≠ cur.name := by
        intro heq
        have heqc : e = cur := hinj heL hcur heq
        subst heqc
        exact hen (by simp)
      rw [lookupA_setA_ne out cur.name e.name _ hne]
      exact hnone e heL (fun hep => hen (by simp [hep]))
    obtain ⟨out2, hrec, hfinal⟩ := ih (pre ++ [cur])
      (setA out cur.name (expectedOut input cur))
      (by rw [hsplit]; simp) hpre1 hnone1
    refine ⟨out2, ?_, hfinal⟩
    show (unpackEntry env view h (byNameF L) (inferredLengthFieldFor L) out cur).bind
      (fun v0 => unpackFields env view h (byNameF L) (inferredLengthFieldFor L) rest
        (setA out cur.name (match cur.unpackTransform with
          | some f => f v0
          | none => v0))) = some out2
    rw [hval, Option.some_bind, hutr]
    exact hrec

/-- C1: unpack after pack reproduces every field logical value exactly,
for every transform-free struct definition whose string and array fields
each carry a numeric length field and every well-typed conforming input.
Corrected from the spec sentence, which asserts the round trip for every
struct definition and conforming value: a string or array field without a
length field packs its payload but unpacks to an empty value, as the
counterexample shows, so the length-field requirement inside wfStruct is
essential. -/
theorem roundTrip_packed_structs (env : FfiEnv) (fields : List FieldDef)
    (opts : StructDefOptions) (input : Input) (h0 : Heap)
    (hps : env.ps = 4 ∨ env.ps = 8)
    (hh : 1 ≤ h0.length)
    (hwf : wfStruct env fields opts = true)
    (hcf : conforms env (layoutOf env.ps fields) input = true)
    (hheap : (((h0.length + payloadBytes env input (layoutOf env.ps fields) : Nat) : Int)
        < (2 : Int) ^ (8 * env.ps))) :
    ∃ buf h1 out,
      packStruct env fields opts input h0 = some (buf, h1) ∧
      unpackStruct env fields buf h1 = some out ∧
      ∀ e ∈ layoutOf env.ps fields,
        lookupA out e.name = some (expectedOut input e) := by
  unfold wfStruct at hwf
  simp only [Bool.and_eq_true, decide_eq_true_eq, Option.isNone_iff_eq_none,
    Nat.decLe, decide_eq_true_eq] at hwf
  obtain ⟨⟨⟨hred, hnd⟩, hall⟩, hlenb⟩ := hwf
  have hwfall : ∀ e ∈ layoutOf env.ps fields, wfEntry env (layoutOf env.ps fields) e = true := by
    rw [← List.all_eq_true]
    exact hall
  have hcfall : ∀ e ∈ layoutOf env.ps fields, conformsEntry env input e = true := by
    rw [← List.all_eq_true]
    exact hcf
  have hk : ∃ k, env.ps = 2 ^ k ∧ k ≤ 3 := by
    rcases hps with hps | hps
    · exact ⟨2, by rw [hps]; norm_num, by norm_num⟩
    · exact ⟨3, by rw [hps]; norm_num, by norm_num⟩
  obtain ⟨k, hk2, hk3⟩ := hk
  have hb31 : 0 + 16 * fields.length ≤ 2 ^ 31 := by
    have : (16 : Nat) * fields.length ≤ 16 * 2 ^ 24 := by
      exact Nat.mul_le_mul_left 16 hlenb
    have h2 : (16 : Nat) * 2 ^ 24 = 2 ^ 28 := by norm_num
    have h3 : (2 : Nat) ^ 28 ≤ 2 ^ 31 := by norm_num
    omega
  obtain ⟨hch, hge, hle, hent⟩ := layoutFields_geometry env.ps hps fields 0 hb31
  have hfin : (layoutFields env.ps fields 0).2 ≤ 2 ^ 31 := by omega
  have hstruct := alignOffset_le (layoutFields env.ps fields 0).2 env.ps k hk2
    (by omega) (by
      have hps8 : env.ps ≤ 8 := by rcases hps with hps | hps <;> omega
      have h32 : (2 : Nat) ^ 31 + 8 ≤ 2 ^ 32 := by norm_num
      omega)
  have hinbuf : ∀ e ∈ layoutOf env.ps fields,
      e.offset + e.size ≤ (List.replicate (structSize env.ps fields) 0).length := by
    intro e he
    rw [List.length_replicate]
    have h1 := (hent e he).1
    unfold structSize
    omega
  obtain ⟨buf2, ext, hpack, hblen, hextlen, hpres, hoks⟩ :=
    packFields_ok env hps (layoutOf env.ps fields) (byNameF (layoutOf env.ps fields))
      input (layoutOf env.ps fields) 0 (List.replicate (structSize env.ps fields) 0)
      h0 hch hinbuf hwfall hcfall hh
  have hpackS : packStruct env fields opts input h0 = some (buf2, h0 ++ ext) := by
    unfold packStruct
    rw [hred]
    exact hpack
  have hbound1 : (((h0 ++ ext).length : Nat) : Int) < (2 : Int) ^ (8 * env.ps) := by
    rw [List.length_append]
    have hple : ext.length ≤ payloadBytes env input (layoutOf env.ps fields) := hextlen
    have hcast : ((h0.length + ext.length : Nat) : Int)
        ≤ ((h0.length + payloadBytes env input (layoutOf env.ps fields) : Nat) : Int) := by
      exact_mod_cast Nat.add_le_add_left hple h0.length
    calc ((h0.length + ext.length : Nat) : Int)
        ≤ _ := hcast
      _ < _ := hheap
  obtain ⟨out2, hunp, hfinal⟩ :=
    unpackFields_ok env hps (layoutOf env.ps fields) input buf2 (h0 ++ ext)
      hnd hwfall hcfall hoks hbound1 (layoutOf env.ps fields) [] []
      (by simp) (by simp) (by
        intro e _ _
        rfl)
  refine ⟨buf2, h0 ++ ext, out2, hpackS, ?_, hfinal⟩
  unfold unpackStruct
  exact hunp

/-! ## Remaining helper lemmas -/

/-- encLEI on a natural number below the range is plain encLE. -/
theorem encLEI_natCast (w n : Nat) (h : (n : Int) < (2 : Int) ^ (8 * w)) :
    encLEI w (n : Int) = encLE w n := by
  unfold encLEI
  congr 1
  rw [Int.emod_eq_of_lt (by positivity) h]
  simp

/-- The nameLen entry sits third in the resolved layout of exFields. -/
theorem exLenEntry_mem : exLenEntry ∈ layoutOf exEnv.ps exFields :=
  List.Mem.tail _ (List.Mem.tail _ (List.Mem.head _))

/-! ## The claims -/

/-- Witness for C1: the round trip at a concrete struct, input and heap,
with every hypothesis evaluated. -/
theorem roundTrip_packed_structs_witness :
    (wfStruct exEnv exFields {} = true ∧
      conforms exEnv (layoutOf exEnv.ps exFields) exInput = true) ∧
    ∃ buf h1 out,
      packStruct exEnv exFields {} exInput [0] = some (buf, h1) ∧
      unpackStruct exEnv exFields buf h1 = some out ∧
      ∀ e ∈ layoutOf exEnv.ps exFields,
        lookupA out e.name = some (expectedOut exInput e) :=
  ⟨⟨by decide, by decide⟩,
    roundTrip_packed_structs exEnv exFields {} exInput [0] (Or.inr rfl) (by decide)
      (by decide) (by decide) (by decide)⟩

/-- C1 counterexample: packing the one-byte string into a struct whose
string field has no length field succeeds and stores the payload, yet
unpacking the result yields the empty string, losing the value without an
error. -/
theorem roundTrip_missing_length_cx :
    packStruct exEnv cx1Fields {} cx1Input [0]
        = some ([1, 0, 0, 0, 0, 0, 0, 0], [0, 97]) ∧
    unpackStruct exEnv cx1Fields [1, 0, 0, 0, 0, 0, 0, 0] [0, 97]
        = some [("s", JsValue.str [])] ∧
    cx1Input "s" = JsValue.str [97] ∧
    JsValue.str [97] ≠ JsValue.str [] := by
  refine ⟨rfl, rfl, rfl, ?_⟩
  intro hcontra
  simp at hcontra

/-- C2: every layout entry satisfies offset mod min(size, pointerWidth)
= 0, and the total struct size is a multiple of the pointer width.  The
field count bound keeps the 32-bit alignOffset arithmetic exact. -/
theorem alignment_invariant (ps : Nat) (fields : List FieldDef)
    (hps : ps = 4 ∨ ps = 8) (hlen : fields.length ≤ 2 ^ 24) :
    (∀ e ∈ layoutOf ps fields, e.offset % min e.size ps = 0) ∧
    structSize ps fields % ps = 0 := by
  have hb31 : 0 + 16 * fields.length ≤ 2 ^ 31 := by
    have h1 : (16 : Nat) * fields.length ≤ 16 * 2 ^ 24 := Nat.mul_le_mul_left 16 hlen
    have h2 : (16 : Nat) * 2 ^ 24 ≤ 2 ^ 31 := by norm_num
    omega
  obtain ⟨hch, hge, hle, hent⟩ := layoutFields_geometry ps hps fields 0 hb31
  constructor
  · intro e he
    exact (hent e he).2.2.2.1
  · have hk : ∃ k, ps = 2 ^ k ∧ k ≤ 32 := by
      rcases hps with hps | hps
      · exact ⟨2, by rw [hps]; norm_num, by norm_num⟩
      · exact ⟨3, by rw [hps]; norm_num, by norm_num⟩
    obtain ⟨k, hk2, hk32⟩ := hk
    unfold structSize
    exact alignOffset_dvd (layoutFields ps fields 0).2 ps k hk2 hk32 (by
      have hps8 : ps ≤ 8 := by rcases hps with h | h <;> omega
      have h32 : (2 : Nat) ^ 31 + 8 ≤ 2 ^ 32 := by norm_num
      omega)

/-- Witness for C2 at the sample struct on the 64-bit host. -/
theorem alignment_invariant_witness :
    exFields.length ≤ 2 ^ 24 ∧
    ((∀ e ∈ layoutOf 8 exFields, e.offset % min e.size 8 = 0) ∧
      structSize 8 exFields % 8 = 0) :=
  ⟨by decide, alignment_invariant 8 exFields (Or.inr rfl) (by decide)⟩

/-- C3: a field declared lengthOf a string field of byte length N packs
to the numeric value N, read back from its slot.  The input value stored
under the length field name does not occur in the conclusion, so any
caller-supplied value for the length field is irrelevant. -/
theorem derived_length_packs_source_length (env : FfiEnv) (fields : List FieldDef)
    (opts : StructDefOptions) (input : Input) (h0 : Heap)
    (e : LayoutEntry) (src : String) (b : List Nat)
    (hps : env.ps = 4 ∨ env.ps = 8)
    (hh : 1 ≤ h0.length)
    (hwf : wfStruct env fields opts = true)
    (hcf : conforms env (layoutOf env.ps fields) input = true)
    (he : e ∈ layoutOf env.ps fields)
    (hk : e.kind = .primitive)
    (hl : e.lengthOf = some src)
    (hsrc : input src = .str b) :
    ∃ buf h1,
      packStruct env fields opts input h0 = some (buf, h1) ∧
      readPrimitive env e.type (readBytes buf e.offset e.size)
        = numericOfType e.type b.length := by
  unfold wfStruct at hwf
  simp only [Bool.and_eq_true, decide_eq_true_eq, Option.isNone_iff_eq_none] at hwf
  obtain ⟨⟨⟨hred, hnd⟩, hall⟩, hlenb⟩ := hwf
  have hwfall : ∀ x ∈ layoutOf env.ps fields,
      wfEntry env (layoutOf env.ps fields) x = true := by
    rw [← List.all_eq_true]
    exact hall
  have hcfall : ∀ x ∈ layoutOf env.ps fields, conformsEntry env input x = true := by
    rw [← List.all_eq_true]
    exact hcf
  have hk2 : ∃ k, env.ps = 2 ^ k ∧ k ≤ 3 := by
    rcases hps with hps | hps
    · exact ⟨2, by rw [hps]; norm_num, by norm_num⟩
    · exact ⟨3, by rw [hps]; norm_num, by norm_num⟩
  obtain ⟨k, hkk, hk3⟩ := hk2
  have hb31 : 0 + 16 * fields.length ≤ 2 ^ 31 := by
    have h1 : (16 : Nat) * fields.length ≤ 16 * 2 ^ 24 := Nat.mul_le_mul_left 16 hlenb
    have h2 : (16 : Nat) * 2 ^ 24 ≤ 2 ^ 31 := by norm_num
    omega
  obtain ⟨hch, hge, hle, hent⟩ := layoutFields_geometry env.ps hps fields 0 hb31
  have hfin : (layoutFields env.ps fields 0).2 ≤ 2 ^ 31 := by omega
  have hstruct := alignOffset_le (layoutFields env.ps fields 0).2 env.ps k hkk
    (by omega) (by
      have hps8 : env.ps ≤ 8 := by rcases hps with h | h <;> omega
      have h32 : (2 : Nat) ^ 31 + 8 ≤ 2 ^ 32 := by norm_num
      omega)
  have hinbuf : ∀ x ∈ layoutOf env.ps fields,
      x.offset + x.size ≤ (List.replicate (structSize env.ps fields) 0).length := by
    intro x hx
    rw [List.length_replicate]
    have h1 := (hent x hx).1
    unfold structSize
    omega
  obtain ⟨buf2, ext, hpack, hblen, hextlen, hpres, hoks⟩ :=
    packFields_ok env hps (layoutOf env.ps fields) (byNameF (layoutOf env.ps fields))
      input (layoutOf env.ps fields) 0 (List.replicate (structSize env.ps fields) 0)
      h0 hch hinbuf hwfall hcfall hh
  have hpackS : packStruct env fields opts input h0 = some (buf2, h0 ++ ext) := by
    unfold packStruct
    rw [hred]
    exact hpack
  have hok := hoks e he
  unfold PackedEntryOk at hok
  rw [hk] at hok
  have hok2 : (match e.lengthOf with
    | some src => ∃ bs, writePrimitive env e.type (.num (srcLenOf input src)) = some bs ∧
        readBytes buf2 e.offset e.size = bs
    | none => ∃ bs, writePrimitive env e.type (resolveValue input e) = some bs ∧
        readBytes buf2 e.offset e.size = bs) := hok
  rw [hl] at hok2
  obtain ⟨bs, hw, hr⟩ := hok2
  have hwfe := hwfall e he
  unfold wfEntry at hwfe
  rw [hk, hl] at hwfe
  simp only [Bool.and_eq_true] at hwfe
  obtain ⟨⟨-, -⟩, ⟨hszb, ⟨hub, -⟩⟩⟩ := hwfe
  have hsz : e.size = primitiveSizes env.ps e.type := by simpa using hszb
  have hcfe := hcfall e he
  unfold conformsEntry at hcfe
  rw [hk, hl] at hcfe
  have hcfe2 : (match input src with
      | JsValue.str bb => ((bb.length : Int) < (2 : Int) ^ (8 * e.size) : Bool)
      | JsValue.arr xs => ((xs.length : Int) < (2 : Int) ^ (8 * e.size) : Bool)
      | _ => false) = true := hcfe
  rw [hsrc] at hcfe2
  have hlen2 : ((b.length : Int) < (2 : Int) ^ (8 * e.size)) := by simpa using hcfe2
  have hlen3 : ((b.length : Int) < (2 : Int) ^ (8 * primitiveSizes env.ps e.type)) := by
    rw [← hsz]
    exact hlen2
  obtain ⟨bs2, hw2, hlen4, hread⟩ := lenfield_write_read env e.type b.length hub hlen3
  have hsl : srcLenOf input src = b.length := by
    unfold srcLenOf
    rw [hsrc]
  rw [hsl] at hw
  have hbs : bs = bs2 := by
    rw [hw] at hw2
    exact Option.some.inj hw2
  refine ⟨buf2, h0 ++ ext, hpackS, ?_⟩
  rw [hr, hbs, hread]

/-- Witness for C3: the nameLen field of the sample struct packs to 2,
the byte length of the name string. -/
theorem derived_length_packs_source_length_witness :
    (wfStruct exEnv exFields {} = true ∧ exLenEntry.kind = .primitive ∧
      exLenEntry.lengthOf = some "name" ∧ exInput "name" = .str [104, 105]) ∧
    ∃ buf h1,
      packStruct exEnv exFields {} exInput [0] = some (buf, h1) ∧
      readPrimitive exEnv exLenEntry.type
          (readBytes buf exLenEntry.offset exLenEntry.size)
        = numericOfType exLenEntry.type 2 :=
  ⟨⟨by decide, rfl, rfl, rfl⟩,
    derived_length_packs_source_length exEnv exFields {} exInput [0] exLenEntry
      "name" [104, 105] (Or.inr rfl) (by decide) (by decide) (by decide)
      exLenEntry_mem rfl rfl rfl⟩

/-- C4: for a mapping with duplicate-free names and values, to and from
are mutual inverses on every declared entry, an unknown name makes to
fail, and an unknown numeric value makes from fail.  Corrected from the
spec sentence, which asserts that to also fails for numeric values
outside the mapping: the source returns any numeric input unchecked, as
the last conjunct states and the counterexample evaluates. -/
theorem enum_to_from_amended (ed : EnumDefM)
    (hnn : (ed.mapping.map (fun p => p.1)).Nodup)
    (hnv : (ed.mapping.map (fun p => p.2)).Nodup) :
    (∀ p ∈ ed.mapping, enumTo ed (.str p.1) = some p.2 ∧ enumFrom ed p.2 = some p.1) ∧
    (∀ name, (∀ p ∈ ed.mapping, p.1 ≠ name) → enumTo ed (.str name) = none) ∧
    (∀ v, (∀ p ∈ ed.mapping, p.2 ≠ v) → enumFrom ed v = none) ∧
    (∀ n : Int, enumTo ed (.num n) = some n) := by
  refine ⟨?_, ?_, ?_, fun n => rfl⟩
  · intro p hp
    exact ⟨enumTo_mem ed p.1 p.2 hnn hp, enumFrom_mem ed p.1 p.2 hnv hp⟩
  · intro name hno
    have hfind : ed.mapping.find? (fun p => p.1 == name) = none := by
      rw [List.find?_eq_none]
      intro p hp
      simp [hno p hp]
    show (ed.mapping.find? (fun p => p.1 == name)).map (fun p => p.2) = none
    rw [hfind]
    rfl
  · intro v hno
    have hfind : ed.mapping.reverse.find? (fun p => p.2 == v) = none := by
      rw [List.find?_eq_none]
      intro p hp
      simp [hno p (List.mem_reverse.mp hp)]
    unfold enumFrom
    rw [hfind]
    rfl

/-- Witness for C4 at the sample enum. -/
theorem enum_to_from_amended_witness :
    ((exEnum.mapping.map (fun p => p.1)).Nodup ∧
      (exEnum.mapping.map (fun p => p.2)).Nodup) ∧
    ((∀ p ∈ exEnum.mapping,
        enumTo exEnum (.str p.1) = some p.2 ∧ enumFrom exEnum p.2 = some p.1) ∧
      (∀ name, (∀ p ∈ exEnum.mapping, p.1 ≠ name) → enumTo exEnum (.str name) = none) ∧
      (∀ v, (∀ p ∈ exEnum.mapping, p.2 ≠ v) → enumFrom exEnum v = none) ∧
      (∀ n : Int, enumTo exEnum (.num n) = some n)) :=
  ⟨⟨by decide, by decide⟩, enum_to_from_amended exEnum (by decide) (by decide)⟩

/-- C4 counterexample: to applied to the number 99, which is not a value
of the mapping, returns it unchecked instead of failing. -/
theorem enum_to_unchecked_number_cx :
    exEnum.mapping.all (fun p => p.2 != 99) = true ∧
    enumTo exEnum (.num 99) = some 99 :=
  ⟨by decide, rfl⟩

/-- C5: unpacking a string or array field whose pointer slot is null
yields the empty string or array, whatever the declared length.
Corrected from the spec error list, which promises a
NullPointerDereference failure for a null pointer with nonzero declared
length: the source tests the pointer and the length together and returns
the empty value silently, as the counterexample shows on a whole
struct. -/
theorem unpack_null_pointer_amended (env : FfiEnv) (view : List Nat) (h : Heap)
    (byName : String → Option LayoutEntry) (inferred : String → Option String)
    (out : OutRec) (e : LayoutEntry)
    (hp : jsBig0 (readPrimitive env .pointer (readBytes view e.offset e.size)) = 0) :
    (e.kind = .char_ptr →
      unpackEntry env view h byName inferred out e = some (.str [])) ∧
    (e.kind = .array →
      unpackEntry env view h byName inferred out e = some (.arr [])) := by
  constructor
  · intro hk
    unfold unpackEntry
    rw [hk]
    simp [hp]
  · intro hk
    unfold unpackEntry
    rw [hk]
    simp [hp]

/-- Witness for C5: the string entry of the sample buffer has a null
pointer slot while its length field holds 5, and unpacks to the empty
string. -/
theorem unpack_null_pointer_amended_witness :
    jsBig0 (readPrimitive exEnv .pointer
        (readBytes cx5View cx5Entry.offset cx5Entry.size)) = 0 ∧
    getLengthFieldValue exEnv cx5View (byNameF (layoutOf exEnv.ps cx5Fields)) []
        (some "len") = 5 ∧
    unpackEntry exEnv cx5View [0] (byNameF (layoutOf exEnv.ps cx5Fields))
        (inferredLengthFieldFor (layoutOf exEnv.ps cx5Fields)) [] cx5Entry
      = some (.str []) := by
  refine ⟨by decide, by decide, ?_⟩
  exact (unpack_null_pointer_amended exEnv cx5View [0]
      (byNameF (layoutOf exEnv.ps cx5Fields))
      (inferredLengthFieldFor (layoutOf exEnv.ps cx5Fields)) [] cx5Entry (by decide)).1 rfl

/-- C5 counterexample: a full unpack of a buffer whose length slot holds
5 and whose pointer slot is null succeeds and yields the empty string for
the field, instead of failing. -/
theorem unpack_null_pointer_succeeds_cx :
    unpackStruct exEnv cx5Fields cx5View [0]
      = some [("len", JsValue.num 5), ("s", JsValue.str [])] :=
  rfl

/-- C6: toArrayBuffer honours the byte offset on the Bun path, and on the
Deno path when the offset accessor exists and the offset is positive.
Corrected from the spec sentence, which promises an OffsetUnsupported
failure otherwise: on a Deno host without the accessor a positive byte
offset is silently ignored and the copy starts at the unoffset pointer,
as the counterexample shows. -/
theorem toArrayBuffer_offset_amended (env : FfiEnv) (h : Heap) (p off len : Nat) :
    (env.runtime = .bun →
      toArrayBuffer env h p off len = readMem h (p + off) len) ∧
    (env.runtime = .deno → env.denoHasOffset = true → 0 < off →
      toArrayBuffer env h p off len = readMem h (p + off) len) ∧
    (env.runtime = .deno → env.denoHasOffset = false →
      toArrayBuffer env h p off len = readMem h p len) := by
  refine ⟨?_, ?_, ?_⟩
  · intro hr
    unfold toArrayBuffer
    rw [hr]
  · intro hr hoff hpos
    unfold toArrayBuffer
    rw [hr]
    simp [hoff, hpos]
  · intro hr hoff
    unfold toArrayBuffer
    rw [hr]
    simp [hoff]

/-- Witness for C6 on a Deno host without the offset accessor: the read
starts at the unoffset pointer. -/
theorem toArrayBuffer_offset_amended_witness :
    (cx6Env.runtime = .deno ∧ cx6Env.denoHasOffset = false) ∧
    toArrayBuffer cx6Env cx6Heap 1 4 4 = readMem cx6Heap 1 4 :=
  ⟨⟨rfl, rfl⟩, (toArrayBuffer_offset_amended cx6Env cx6Heap 1 4 4).2.2 rfl rfl⟩

/-- C6 counterexample: with byteOffset 4 on a Deno host without the
offset accessor, the bytes returned are those at the unoffset pointer,
which differ from the bytes at pointer plus 4; the call does not fail. -/
theorem toArrayBuffer_offset_ignored_cx :
    toArrayBuffer cx6Env cx6Heap 1 4 4 = [1, 2, 3, 4] ∧
    readMem cx6Heap (1 + 4) 4 = [5, 6, 7, 8] ∧
    ([1, 2, 3, 4] : List Nat) ≠ [5, 6, 7, 8] :=
  ⟨rfl, rfl, by decide⟩

/-- C7: the legacy shape (args, returns) and the canonical shape
(parameters, result) of the same definition normalize identically on both
runtimes.  Corrected from the spec sentence, which has the legacy ptr
alias mapped to pointer for either target runtime: only the Deno path
rewrites ptr to pointer, the Bun path passes every type tag through
unchanged, as the counterexample shows. -/
theorem normalize_legacy_canonical_amended (n : String) (a : List NativeType)
    (r : NativeType) (nb : Option Bool) (rt : RuntimeKind) :
    normalizeSymbolsForRuntime
        [(n, { args := some a, returns := some r, nonblocking := nb })] rt
      = normalizeSymbolsForRuntime
          [(n, { parameters := some a, result := some r, nonblocking := nb })] rt ∧
    normalizeSymbolsForRuntime
        [(n, { args := some a, returns := some r, nonblocking := nb })] .bun
      = [(n, .bunSym a r nb)] ∧
    normalizeSymbolsForRuntime
        [(n, { args := some a, returns := some r, nonblocking := nb })] .deno
      = [(n, .denoSym (a.map toDenoType) (toDenoType r) nb)] := by
  refine ⟨?_, rfl, rfl⟩
  cases rt <;> rfl

/-- C7 counterexample: on the Bun runtime the legacy ptr alias is kept as
ptr, not mapped to pointer. -/
theorem bun_ptr_alias_unmapped_cx :
    normalizeSymbolsForRuntime [("f", { args := some [NativeType.ptr] })] .bun
      = [("f", .bunSym [NativeType.ptr] .void none)] ∧
    NativeType.ptr ≠ NativeType.pointer :=
  ⟨rfl, by decide⟩

/-- C8: every unsigned integer scalar is stored little-endian (byte i of
the slot holds value divided by 2 to the 8i, mod 256) and reads back
exactly; the u64 wire type travels as a bigint on both paths, so values
above 2 to the 53 round-trip without loss, as the witness evaluates at
2 to the 53 plus 1. -/
theorem scalar_little_endian_roundtrip (env : FfiEnv) (t : PrimitiveType) (n : Nat)
    (hu : isUIntType t = true)
    (hn : (n : Int) < (2 : Int) ^ (8 * primitiveSizes env.ps t)) :
    ∃ bs, writePrimitive env t (numericOfType t n) = some bs ∧
      bs.length = primitiveSizes env.ps t ∧
      (∀ i, i < primitiveSizes env.ps t → bs.getD i 0 = n / 2 ^ (8 * i) % 256) ∧
      readPrimitive env t bs = numericOfType t n := by
  cases t <;> simp [isUIntType] at hu
  case u8 =>
    have hn2 : (n : Int) < (2 : Int) ^ (8 * 1) := hn
    have hn3 : n < 2 ^ (8 * 1) := by exact_mod_cast hn2
    refine ⟨encLE 1 n, ?_, encLE_length 1 n, ?_, ?_⟩
    · show some (encLEI 1 ((n : Nat) : Int)) = some (encLE 1 n)
      rw [encLEI_natCast 1 n hn2]
    · intro i hi
      exact encLE_getD 1 n i hi
    · show JsValue.num (decLE ((encLE 1 n).take 1)) = numericOfType .u8 n
      rw [List.take_of_length_le (le_of_eq (encLE_length 1 n)), decLE_encLE 1 n hn3]
      rfl
  case u16 =>
    have hn2 : (n : Int) < (2 : Int) ^ (8 * 2) := hn
    have hn3 : n < 2 ^ (8 * 2) := by exact_mod_cast hn2
    refine ⟨encLE 2 n, ?_, encLE_length 2 n, ?_, ?_⟩
    · show some (encLEI 2 ((n : Nat) : Int)) = some (encLE 2 n)
      rw [encLEI_natCast 2 n hn2]
    · intro i hi
      exact encLE_getD 2 n i hi
    · show JsValue.num (decLE ((encLE 2 n).take 2)) = numericOfType .u16 n
      rw [List.take_of_length_le (le_of_eq (encLE_length 2 n)), decLE_encLE 2 n hn3]
      rfl
  case u32 =>
    have hn2 : (n : Int) < (2 : Int) ^ (8 * 4) := hn
    have hn3 : n < 2 ^ (8 * 4) := by exact_mod_cast hn2
    refine ⟨encLE 4 n, ?_, encLE_length 4 n, ?_, ?_⟩
    · show some (encLEI 4 ((n : Nat) : Int)) = some (encLE 4 n)
      rw [encLEI_natCast 4 n hn2]
    · intro i hi
      exact encLE_getD 4 n i hi
    · show JsValue.num (decLE ((encLE 4 n).take 4)) = numericOfType .u32 n
      rw [List.take_of_length_le (le_of_eq (encLE_length 4 n)), decLE_encLE 4 n hn3]
      rfl
  case u64 =>
    have hn2 : (n : Int) < (2 : Int) ^ (8 * 8) := hn
    have hn3 : n < 2 ^ (8 * 8) := by exact_mod_cast hn2
    refine ⟨encLE 8 n, ?_, encLE_length 8 n, ?_, ?_⟩
    · show some (encLEI 8 ((n : Nat) : Int)) = some (encLE 8 n)
      rw [encLEI_natCast 8 n hn2]
    · intro i hi
      exact encLE_getD 8 n i hi
    · show JsValue.big (decLE ((encLE 8 n).take 8)) = numericOfType .u64 n
      rw [List.take_of_length_le (le_of_eq (encLE_length 8 n)), decLE_encLE 8 n hn3]
      rfl

/-- Witness for C8 at u64 with the value 2 to the 53 plus 1, above the
double precision range. -/
theorem scalar_little_endian_roundtrip_witness :
    (isUIntType .u64 = true ∧
      ((2 ^ 53 + 1 : Nat) : Int) < (2 : Int) ^ (8 * primitiveSizes exEnv.ps .u64)) ∧
    ∃ bs, writePrimitive exEnv .u64 (numericOfType .u64 (2 ^ 53 + 1)) = some bs ∧
      bs.length = primitiveSizes exEnv.ps .u64 ∧
      (∀ i, i < primitiveSizes exEnv.ps .u64 →
        bs.getD i 0 = (2 ^ 53 + 1) / 2 ^ (8 * i) % 256) ∧
      readPrimitive exEnv .u64 bs = numericOfType .u64 (2 ^ 53 + 1) :=
  ⟨⟨rfl, by decide⟩, scalar_little_endian_roundtrip exEnv .u64 (2 ^ 53 + 1) rfl (by decide)⟩

/-- C9: on the fallback width path, the width of e followed by combining
acute is 1, the width of the slightly smiling face emoji is 2, and the
width of A is 1. -/
theorem display_width_values :
    stringWidth none [0x65, 0x301] = 1 ∧
    stringWidth none [0x1F642] = 2 ∧
    stringWidth none [0x41] = 1 :=
  ⟨rfl, rfl, rfl⟩

/-- C10: pointerToBigInt maps null and undefined to the bigint 0 and
passes numbers and bigints through unchanged; the failure is reserved for
handle values the host accessor cannot resolve, for every handle when the
accessor is missing, and for the remaining non-pointer shapes. -/
theorem pointerToBigInt_null_and_reserved_failure (env : FfiEnv) :
    pointerToBigInt env .null = some 0 ∧
    pointerToBigInt env .undef = some 0 ∧
    (∀ n : Int, pointerToBigInt env (.big n) = some n) ∧
    (∀ n : Int, pointerToBigInt env (.num n) = some n) ∧
    (∀ r, pointerToBigInt env (.obj r) = if env.denoPtrValue then r else none) ∧
    (∀ b, pointerToBigInt env (.bool b) = none) ∧
    (∀ s, pointerToBigInt env (.str s) = none) ∧
    (∀ xs, pointerToBigInt env (.arr xs) = none) := by
  refine ⟨rfl, rfl, fun n => rfl, fun n => rfl, ?_, ?_, ?_, ?_⟩
  · intro r
    rcases hdp : env.denoPtrValue <;> rcases r <;> simp [pointerToBigInt, hdp]
  · intro b
    rcases hdp : env.denoPtrValue <;> simp [pointerToBigInt, hdp]
  · intro s
    rcases hdp : env.denoPtrValue <;> simp [pointerToBigInt, hdp]
  · intro xs
    rcases hdp : env.denoPtrValue <;> simp [pointerToBigInt, hdp]

end OpenTui
